import Mathlib

/-!
Verification development for the `mb-rs` Mercado Bitcoin API client
(`src/client.rs`).  The definitions below are a shallow embedding of the
client's pure computations: request signing (form-url-encoding, HMAC-SHA-512,
lowercase hex), parameter-list construction for each private operation,
response-envelope handling, status-code decoding, fixed-point decimal
formatting, value-as-string JSON field decoding and the day-summary date
parsing.  Machine integers are modelled as `Nat` with explicit reduction
modulo `2 ^ 64`; `f64`/`f32` values are modelled by the exact rational value
of the (finite) float.
-/

namespace MB

/-! Byte-level helpers.  Bytes are `Nat` values below 256. -/

/-- UTF-8 encoding of a unicode scalar value, as a list of bytes. -/
def utf8EncodeChar (n : Nat) : List Nat :=
  if n < 0x80 then [n]
  else if n < 0x800 then
    [0xC0 + n / 0x40, 0x80 + n % 0x40]
  else if n < 0x10000 then
    [0xE0 + n / 0x1000, 0x80 + n / 0x40 % 0x40, 0x80 + n % 0x40]
  else
    [0xF0 + n / 0x40000, 0x80 + n / 0x1000 % 0x40, 0x80 + n / 0x40 % 0x40,
     0x80 + n % 0x40]

/-- The UTF-8 bytes of a string (Rust `str::as_bytes`). -/
def utf8Bytes (s : String) : List Nat :=
  s.data.foldr (fun c r => utf8EncodeChar c.toNat ++ r) []

/-- Lowercase hexadecimal digit for a value below 16. -/
def hexDigitLower (n : Nat) : Char :=
  if n < 10 then Char.ofNat (48 + n) else Char.ofNat (87 + n)

/-- Uppercase hexadecimal digit for a value below 16. -/
def hexDigitUpper (n : Nat) : Char :=
  if n < 10 then Char.ofNat (48 + n) else Char.ofNat (55 + n)

/-- Lowercase hex encoding of a byte list (the Rust `hex::encode`). -/
def hexEncode (bs : List Nat) : String :=
  String.join (bs.map (fun b => String.mk [hexDigitLower (b / 16), hexDigitLower (b % 16)]))

/-- Bytes kept verbatim by `form_urlencoded` (the serializer behind
`serde_urlencoded::to_string`): ASCII alphanumerics and `*`, `-`, `.`, `_`. -/
def isFormUnreserved (b : Nat) : Bool :=
  (48 ≤ b && b ≤ 57) || (65 ≤ b && b ≤ 90) || (97 ≤ b && b ≤ 122) ||
    b == 42 || b == 45 || b == 46 || b == 95

/-- Form-url-encoding of a single byte: space becomes `+`, unreserved bytes
stay, everything else becomes `%XX` with uppercase hex. -/
def formUrlEncodeByte (b : Nat) : String :=
  if b == 32 then "+"
  else if isFormUnreserved b then String.mk [Char.ofNat b]
  else String.mk ['%', hexDigitUpper (b / 16), hexDigitUpper (b % 16)]

/-- Form-url-encoding of a string, applied byte-wise to its UTF-8 bytes. -/
def formUrlEncodeStr (s : String) : String :=
  String.join ((utf8Bytes s).map formUrlEncodeByte)

/-- An ordered parameter list, the Rust `type Query = Vec<(String, String)>`. -/
abbrev Query : Type := List (String × String)

/-- The Rust `serde_urlencoded::to_string` on a `Vec<(String, String)>`:
`k₁=v₁&k₂=v₂&...` in insertion order, keys and values form-url-encoded,
pairs joined by `&`. -/
def serdeUrlencodedToString : Query → String
  | [] => ""
  | [p] => formUrlEncodeStr p.1 ++ "=" ++ formUrlEncodeStr p.2
  | p :: q =>
    formUrlEncodeStr p.1 ++ "=" ++ formUrlEncodeStr p.2 ++ "&" ++ serdeUrlencodedToString q

/-! SHA-512, after FIPS 180-4, on byte lists.  The round constants and the
initial hash value are derived from the fractional parts of the cube roots
(resp. square roots) of the first eighty (resp. eight) primes, exactly as the
standard defines them. -/

/-- Two to the sixty-fourth power; 64-bit words are `Nat` values below it. -/
def M64 : Nat := 2 ^ 64

/-- The first eighty prime numbers. -/
def primes80 : List Nat :=
  [2, 3, 5, 7, 11, 13, 17, 19, 23, 29, 31, 37, 41, 43, 47, 53, 59, 61, 67, 71,
   73, 79, 83, 89, 97, 101, 103, 107, 109, 113, 127, 131, 137, 139, 149, 151,
   157, 163, 167, 173, 179, 181, 191, 193, 197, 199, 211, 223, 227, 229, 233,
   239, 241, 251, 257, 263, 269, 271, 277, 281, 283, 293, 307, 311, 313, 317,
   331, 337, 347, 349, 353, 359, 367, 373, 379, 383, 389, 397, 401, 409]

/-- Bisection step for the integer cube root: maintains `lo ^ 3 ≤ n < hi ^ 3`. -/
def icbrtGo : Nat → Nat → Nat → Nat → Nat
  | 0, _, lo, _ => lo
  | fuel + 1, n, lo, hi =>
    if hi ≤ lo + 1 then lo
    else
      let mid := (lo + hi) / 2
      if mid * mid * mid ≤ n then icbrtGo fuel n mid hi else icbrtGo fuel n lo mid

/-- Integer cube root: the largest `x` with `x ^ 3 ≤ n` (for the sizes used
here, 256 bisection steps are ample). -/
def icbrt (n : Nat) : Nat := icbrtGo 256 n 0 (n + 1)

/-- The eighty SHA-512 round constants: the first 64 bits of the fractional
parts of the cube roots of the first eighty primes. -/
def sha512K : List Nat := primes80.map (fun p => icbrt (p * 2 ^ 192) % M64)

/-- The SHA-512 initial hash value: the first 64 bits of the fractional parts
of the square roots of the first eight primes. -/
def sha512H0 : List Nat := (primes80.take 8).map (fun p => Nat.sqrt (p * 2 ^ 128) % M64)

/-- Right rotation of a 64-bit word. -/
def rotr64 (x n : Nat) : Nat := ((x >>> n) ||| (x <<< (64 - n))) % M64

/-- The SHA-512 `Ch` function. -/
def sha512Ch (x y z : Nat) : Nat := (x &&& y) ^^^ ((x ^^^ (M64 - 1)) &&& z)

/-- The SHA-512 `Maj` function. -/
def sha512Maj (x y z : Nat) : Nat := (x &&& y) ^^^ (x &&& z) ^^^ (y &&& z)

/-- The SHA-512 big sigma-0 function. -/
def bigSigma0 (x : Nat) : Nat := rotr64 x 28 ^^^ rotr64 x 34 ^^^ rotr64 x 39

/-- The SHA-512 big sigma-1 function. -/
def bigSigma1 (x : Nat) : Nat := rotr64 x 14 ^^^ rotr64 x 18 ^^^ rotr64 x 41

/-- The SHA-512 small sigma-0 function. -/
def smallSigma0 (x : Nat) : Nat := rotr64 x 1 ^^^ rotr64 x 8 ^^^ (x >>> 7)

/-- The SHA-512 small sigma-1 function. -/
def smallSigma1 (x : Nat) : Nat := rotr64 x 19 ^^^ rotr64 x 61 ^^^ (x >>> 6)

/-- Big-endian bytes of a value, `n` bytes wide. -/
def beBytes (n v : Nat) : List Nat :=
  (List.range n).map (fun i => v / 2 ^ (8 * (n - 1 - i)) % 256)

/-- Big-endian combination of a byte list into one number. -/
def beCombine (bs : List Nat) : Nat := bs.foldl (fun a b => a * 256 + b) 0

/-- SHA-512 message padding: append `0x80`, zeros, and the 128-bit big-endian
bit length, reaching a multiple of 128 bytes. -/
def sha512Pad (msg : List Nat) : List Nat :=
  let L := msg.length
  let k := (128 - (L + 17) % 128) % 128
  msg ++ 128 :: (List.replicate k 0 ++ beBytes 16 (8 * L))

/-- One message-schedule extension step: appends word `t` computed from words
`t - 2`, `t - 7`, `t - 15` and `t - 16`. -/
def sha512ExtendStep (ws : List Nat) : List Nat :=
  let n := ws.length
  ws ++ [(smallSigma1 (ws.getD (n - 2) 0) + ws.getD (n - 7) 0 +
          smallSigma0 (ws.getD (n - 15) 0) + ws.getD (n - 16) 0) % M64]

/-- One SHA-512 round on the eight-word working state, given the round
constant paired with the schedule word. -/
def sha512Round (st : List Nat) (kw : Nat × Nat) : List Nat :=
  match st with
  | [a, b, c, d, e, f, g, h] =>
    let t1 := (h + bigSigma1 e + sha512Ch e f g + kw.1 + kw.2) % M64
    let t2 := (bigSigma0 a + sha512Maj a b c) % M64
    [(t1 + t2) % M64, a, b, c, (d + t1) % M64, e, f, g]
  | other => other

/-- SHA-512 compression of one 128-byte block into the running hash. -/
def sha512Compress (h : List Nat) (block : List Nat) : List Nat :=
  let ws0 := (List.range 16).map (fun i => beCombine ((block.drop (8 * i)).take 8))
  let ws := (List.range 64).foldl (fun acc _ => sha512ExtendStep acc) ws0
  let st := (sha512K.zip ws).foldl sha512Round h
  (h.zip st).map (fun p => (p.1 + p.2) % M64)

/-- Fuelled iteration over the 128-byte blocks of a padded message. -/
def sha512Blocks : Nat → List Nat → List Nat → List Nat
  | 0, h, _ => h
  | fuel + 1, h, msg =>
    if msg.length < 128 then h
    else sha512Blocks fuel (sha512Compress h (msg.take 128)) (msg.drop 128)

/-- SHA-512 of a byte list, as the 64-byte digest. -/
def sha512 (msg : List Nat) : List Nat :=
  let padded := sha512Pad msg
  let hs := sha512Blocks (padded.length + 1) sha512H0 padded
  hs.foldr (fun w acc => beBytes 8 w ++ acc) []

/-- HMAC-SHA-512 (RFC 2104) on byte lists; any key length is accepted (longer
than the 128-byte block is first hashed, shorter is zero-padded). -/
def hmacSha512 (key msg : List Nat) : List Nat :=
  let k0 := if 128 < key.length then sha512 key else key
  let kp := k0 ++ List.replicate (128 - k0.length) 0
  sha512 ((kp.map (fun b => b ^^^ 0x5c)) ++ sha512 ((kp.map (fun b => b ^^^ 0x36)) ++ msg))

/-! The client and the signing pipeline (`src/client.rs`, lines 13 and
135-215). -/

/-- The fixed API version path literal (`const API_VERSION_PATH`). -/
def API_VERSION_PATH : String := "/tapi/v3/"

/-- The client configuration (`struct Client`): optional public and private
base URLs and optional credential pair. -/
structure Client where
  public_url : Option String
  private_url : Option String
  identifier : Option String
  secret : Option String

/-- `Client::init`: full client, all four fields present. -/
def Client.init (pu pr id sec : String) : Client :=
  ⟨some pu, some pr, some id, some sec⟩

/-- `Client::init_public`: public URL only. -/
def Client.init_public (u : String) : Client :=
  ⟨some u, none, none, none⟩

/-- `Client::init_private`: private URL and credentials, no public URL. -/
def Client.init_private (u id sec : String) : Client :=
  ⟨none, some u, some id, some sec⟩

/-- The body of `Client::sign` given the unwrapped secret: serialize the
ordered parameters with `serde_urlencoded`, prepend the version path and a
`?`, HMAC-SHA-512 under the secret's UTF-8 bytes (`new_varkey` accepts any
key length, hence `hmacSha512` is total), and hex-encode lowercase. -/
def signRaw (secret : String) (params : Query) : String :=
  let ps := serdeUrlencodedToString params
  let signatureParam := API_VERSION_PATH ++ "?" ++ ps
  hexEncode (hmacSha512 (utf8Bytes secret) (utf8Bytes signatureParam))

/-- `Client::sign`: reads `self.secret()` (an `unwrap`, modelled as the
`Option`; `none` is the abort) and signs. -/
def Client.sign (c : Client) (params : Query) : Option String :=
  c.secret.map (fun sec => signRaw sec params)

/-- The signing input string (the `signature_param` of `Client::sign`). -/
def signingInput (params : Query) : String :=
  API_VERSION_PATH ++ "?" ++ serdeUrlencodedToString params

/-- Modelled from the spec's signature algorithm, step by step: the lowercase
hex encoding of HMAC-SHA-512 keyed by the secret over the concatenation of
the literal `/tapi/v3/`, a literal `?`, and the form-URL-encoded
serialization of the pairs in insertion order. -/
def specSignature (secret : String) (pairs : Query) : String :=
  hexEncode (hmacSha512 (utf8Bytes secret)
    (utf8Bytes ("/tapi/v3/" ++ "?" ++ serdeUrlencodedToString pairs)))

/-! Status codes, envelopes and error kinds (`src/client.rs`, lines 15-90
and 297-310). -/

/-- The closed enumeration `ApiStatus` of documented numeric codes. -/
inductive ApiStatus where
  | Success
  | TradingHalted
  | PostRequestRequired
  | InvalidTapiID
  | InvalidTapiMac
  | InvalidTapiNonce
  | InvalidTapiMethod
  | InvalidParam
  | RequestLimitExceeded
  | InvalidRequest
  | RequestBlocked
  | InternalError
  | ReadOnlyKey
  | InvalidCoinPair
  | InsuficientBrlBalance
  | InsuficientBitcoinBalance
  | InsuficientLitecoinBalance
  | InsuficientBCashBalance
  | InsuficientXRPBalance
  | InsuficientEthereumBalance
  | InvalidBitcoinQuantity
  | InvalidLitecoinQuantity
  | InvalidBCashQuantity
  | InvalidXRPQuantity
  | InvalidEthereumQuantity
  | InvalidPrice
  | InvalidDecimalCases
  | OrderProcessing
deriving DecidableEq, Repr

/-- The discriminant of each `ApiStatus` variant (`#[repr(u32)]` values). -/
def ApiStatus.code : ApiStatus → ℤ
  | .Success => 100
  | .TradingHalted => 199
  | .PostRequestRequired => 200
  | .InvalidTapiID => 201
  | .InvalidTapiMac => 202
  | .InvalidTapiNonce => 203
  | .InvalidTapiMethod => 204
  | .InvalidParam => 206
  | .RequestLimitExceeded => 429
  | .InvalidRequest => 430
  | .RequestBlocked => 431
  | .InternalError => 500
  | .ReadOnlyKey => 211
  | .InvalidCoinPair => 205
  | .InsuficientBrlBalance => 207
  | .InsuficientBitcoinBalance => 215
  | .InsuficientLitecoinBalance => 216
  | .InsuficientBCashBalance => 232
  | .InsuficientXRPBalance => 240
  | .InsuficientEthereumBalance => 243
  | .InvalidBitcoinQuantity => 222
  | .InvalidLitecoinQuantity => 223
  | .InvalidBCashQuantity => 234
  | .InvalidXRPQuantity => 242
  | .InvalidEthereumQuantity => 245
  | .InvalidPrice => 224
  | .InvalidDecimalCases => 227
  | .OrderProcessing => 432

/-- All status variants, for exhaustiveness arguments. -/
def allApiStatuses : List ApiStatus :=
  [.Success, .TradingHalted, .PostRequestRequired, .InvalidTapiID,
   .InvalidTapiMac, .InvalidTapiNonce, .InvalidTapiMethod, .InvalidParam,
   .RequestLimitExceeded, .InvalidRequest, .RequestBlocked, .InternalError,
   .ReadOnlyKey, .InvalidCoinPair, .InsuficientBrlBalance,
   .InsuficientBitcoinBalance, .InsuficientLitecoinBalance,
   .InsuficientBCashBalance, .InsuficientXRPBalance,
   .InsuficientEthereumBalance, .InvalidBitcoinQuantity,
   .InvalidLitecoinQuantity, .InvalidBCashQuantity, .InvalidXRPQuantity,
   .InvalidEthereumQuantity, .InvalidPrice, .InvalidDecimalCases,
   .OrderProcessing]

/-- The `serde_repr`-derived deserializer for `ApiStatus`: a numeric code
maps to the variant with that discriminant, every other integer fails (an
out-of-`u32`-range integer already fails the `u32` decode, so it also yields
`none` here). -/
def apiStatusOfCode (n : ℤ) : Option ApiStatus :=
  allApiStatuses.find? (fun s => s.code = n)

/-- The documented numeric status codes. -/
def documentedCodes : List ℤ :=
  [100, 199, 200, 201, 202, 203, 204, 205, 206, 207, 211, 215, 216, 222, 223,
   224, 227, 232, 234, 240, 242, 243, 245, 429, 430, 431, 432, 500]

/-- A transport-level failure (the wrapped `reqwest::Error`), abstracted to
its message. -/
structure ReqwestError where
  message : String
deriving DecidableEq, Repr

/-- The client error enumeration (`enum Error`): transport failures wrap the
underlying error, API failures carry the decoded status. -/
inductive Error where
  | RequestError (e : ReqwestError)
  | ApiError (s : ApiStatus)
deriving DecidableEq, Repr

/-- The private response envelope (`struct Response<Data>`): optional payload
and mandatory status code. -/
structure Response (Data : Type) where
  response_data : Option Data
  status_code : ApiStatus

/-- `Response::is_success`: true exactly on `ApiStatus::Success`. -/
def Response.is_success {T : Type} (r : Response T) : Bool :=
  match r.status_code with
  | .Success => true
  | _ => false

/-- Possible outcomes of a private operation after the HTTP exchange:
`Ok(payload)`, `Err(e)`, or a panic (the `unwrap` of a missing payload). -/
inductive OpResult (T : Type) where
  | ok (t : T)
  | err (e : Error)
  | panicked

/-- The shared response-handling tail of every private operation (lines
362-367, 432-436 and 527-531, plus the `?`-propagation of transport and
decode failures through `From<reqwest::Error>`): a transport or JSON-decode
failure becomes `Error::RequestError`; a decoded envelope yields the payload
on success (panicking when the payload is absent) and `Error::ApiError`
carrying the status code otherwise. -/
def handleResponse {T : Type} (res : Except ReqwestError (Response T)) : OpResult T :=
  match res with
  | .error e => .err (.RequestError e)
  | .ok r =>
    if r.is_success then
      match r.response_data with
      | some d => .ok d
      | none => .panicked
    else .err (.ApiError r.status_code)

/-! Domain value types and their `serde` decoding (`src/client.rs`, lines
92-100, 119-133, 218-240, 312-331, 370-400, 464-502).  JSON documents are
modelled by `Json`; `f32`/`f64` values by exact rationals. -/

/-- A JSON value.  Numbers carry their exact value. -/
inductive Json where
  | str (s : String)
  | num (q : ℚ)
  | bool (b : Bool)
  | null
  | arr (xs : List Json)
  | obj (fields : List (String × Json))

/-- Greedy decimal-digit scan over a character list, unbounded: returns the
accumulated value, the digit count and the rest. -/
def takeDigitsAll : List Char → ℕ → ℕ → ℕ × ℕ × List Char
  | [], v, c => (v, c, [])
  | ch :: rest, v, c =>
    if ch.isDigit then takeDigitsAll rest (10 * v + (ch.toNat - 48)) (c + 1)
    else (v, c, ch :: rest)

/-- The Rust `f64`/`f32` `FromStr` grammar for finite values, evaluated
exactly: optional sign, integer digits, optional fraction, optional
exponent, requiring at least one mantissa digit and full consumption.
The `inf`/`infinity`/`nan` forms lie outside the rational model and are not
produced. -/
def parseDecimal (s : String) : Option ℚ :=
  let cs := s.data
  let signAndRest : Bool × List Char :=
    match cs with
    | c :: rest =>
      if c = '-' then (true, rest)
      else if c = '+' then (false, rest) else (false, cs)
    | [] => (false, [])
  let neg := signAndRest.1
  let t1 := takeDigitsAll signAndRest.2 0 0
  let ip := t1.1
  let ic := t1.2.1
  let fracAndRest : ℕ × ℕ × List Char :=
    match t1.2.2 with
    | '.' :: rest => takeDigitsAll rest 0 0
    | other => (0, 0, other)
  let fp := fracAndRest.1
  let fc := fracAndRest.2.1
  if ic + fc = 0 then none
  else
    let mant : ℚ := mkRat (Int.ofNat (ip * 10 ^ fc + fp)) (10 ^ fc)
    let signed := if neg then Rat.neg mant else mant
    match fracAndRest.2.2 with
    | [] => some signed
    | e :: rest =>
      if e = 'e' ∨ e = 'E' then
        let expSignAndRest : Bool × List Char :=
          match rest with
          | c :: r2 =>
            if c = '-' then (true, r2)
            else if c = '+' then (false, r2) else (false, rest)
          | [] => (false, [])
        let t2 := takeDigitsAll expSignAndRest.2 0 0
        if t2.2.1 = 0 then none
        else
          match t2.2.2 with
          | [] =>
            some (if expSignAndRest.1 then mkRat signed.num (signed.den * 10 ^ t2.1)
                  else mkRat (signed.num * Int.ofNat (10 ^ t2.1)) signed.den)
          | _ => none
      else none

/-- The `from_str` deserializer helper (lines 92-100): deserialize a JSON
string, then `FromStr`-parse it; a native JSON number (or any non-string)
is a type error, a malformed numeric string is a parse error. -/
def fromStrField (j : Json) : Except String ℚ :=
  match j with
  | .str s =>
    match parseDecimal s with
    | some q => .ok q
    | none => .error "invalid float literal"
  | _ => .error "invalid type: expected a string"

/-- Field lookup in a JSON object. -/
def jGet (j : Json) (k : String) : Except String Json :=
  match j with
  | .obj fields =>
    match fields.lookup k with
    | some v => .ok v
    | none => .error ("missing field " ++ k)
  | _ => .error "invalid type: expected an object"

/-- Decode a JSON integer (serde `i64`/`u8`-style: a number with no
fractional part). -/
def jInt (j : Json) : Except String ℤ :=
  match j with
  | .num q => if q.den = 1 then .ok q.num else .error "invalid type: expected an integer"
  | _ => .error "invalid type: expected an integer"

/-- Decode a JSON boolean. -/
def jBool (j : Json) : Except String Bool :=
  match j with
  | .bool b => .ok b
  | _ => .error "invalid type: expected a boolean"

/-- Decode a JSON string. -/
def jString (j : Json) : Except String String :=
  match j with
  | .str s => .ok s
  | _ => .error "invalid type: expected a string"

/-- The order side (`enum OrderType`, discriminants 1 and 2). -/
inductive OrderType where
  | Buy
  | Sell
deriving DecidableEq, Repr

/-- `OrderType::place_order_name`. -/
def OrderType.place_order_name : OrderType → String
  | .Buy => "place_buy_order"
  | .Sell => "place_sell_order"

/-- The `serde_repr` decoder for `OrderType`. -/
def decodeOrderType (j : Json) : Except String OrderType := do
  let n ← jInt j
  if n = 1 then pure .Buy
  else if n = 2 then pure .Sell
  else .error "invalid OrderType discriminant"

/-- The order lifecycle status (`enum OrderStatus`, discriminants 2, 3, 4). -/
inductive OrderStatus where
  | Open
  | Cancelled
  | Filled
deriving DecidableEq, Repr

/-- The `serde_repr` decoder for `OrderStatus`. -/
def decodeOrderStatus (j : Json) : Except String OrderStatus := do
  let n ← jInt j
  if n = 2 then pure .Open
  else if n = 3 then pure .Cancelled
  else if n = 4 then pure .Filled
  else .error "invalid OrderStatus discriminant"

/-- The ticker snapshot (`struct Ticker`); the six prices are value-as-string
fields, the date is a millisecond timestamp. -/
structure Ticker where
  high : ℚ
  low : ℚ
  vol : ℚ
  last : ℚ
  buy : ℚ
  sell : ℚ
  date : ℤ
deriving DecidableEq, Repr

/-- The derived `Deserialize` for `Ticker`: every price field goes through
`from_str`, the date through `ts_milliseconds`. -/
def decodeTicker (j : Json) : Except String Ticker := do
  let high ← fromStrField (← jGet j "high")
  let low ← fromStrField (← jGet j "low")
  let vol ← fromStrField (← jGet j "vol")
  let last ← fromStrField (← jGet j "last")
  let buy ← fromStrField (← jGet j "buy")
  let sell ← fromStrField (← jGet j "sell")
  let date ← jInt (← jGet j "date")
  pure ⟨high, low, vol, last, buy, sell, date⟩

/-- One order-book entry (`struct OrderbookOrder`); quantity and limit price
are value-as-string fields. -/
structure OrderbookOrder where
  order_id : ℤ
  quantity : ℚ
  limit_price : ℚ
  is_owner : Bool
deriving DecidableEq, Repr

/-- The derived `Deserialize` for `OrderbookOrder`. -/
def decodeOrderbookOrder (j : Json) : Except String OrderbookOrder := do
  let order_id ← jInt (← jGet j "order_id")
  let quantity ← fromStrField (← jGet j "quantity")
  let limit_price ← fromStrField (← jGet j "limit_price")
  let is_owner ← jBool (← jGet j "is_owner")
  pure ⟨order_id, quantity, limit_price, is_owner⟩

/-- The order-book (`struct Orderbook`). -/
structure Orderbook where
  bids : List OrderbookOrder
  asks : List OrderbookOrder

/-- The order-book response payload (`struct OrderbookResponse`). -/
structure OrderbookResponse where
  orderbook : Orderbook

/-- A placed order (`struct Order`); the five numeric fields are
value-as-string fields. -/
structure Order where
  order_id : ℤ
  coin_pair : String
  order_type : OrderType
  status : OrderStatus
  has_fills : Bool
  quantity : ℚ
  limit_price : ℚ
  executed_quantity : ℚ
  executed_price_avg : ℚ
  fee : ℚ
deriving DecidableEq, Repr

/-- The derived `Deserialize` for `Order`. -/
def decodeOrder (j : Json) : Except String Order := do
  let order_id ← jInt (← jGet j "order_id")
  let coin_pair ← jString (← jGet j "coin_pair")
  let order_type ← decodeOrderType (← jGet j "order_type")
  let status ← decodeOrderStatus (← jGet j "status")
  let has_fills ← jBool (← jGet j "has_fills")
  let quantity ← fromStrField (← jGet j "quantity")
  let limit_price ← fromStrField (← jGet j "limit_price")
  let executed_quantity ← fromStrField (← jGet j "executed_quantity")
  let executed_price_avg ← fromStrField (← jGet j "executed_price_avg")
  let fee ← fromStrField (← jGet j "fee")
  pure ⟨order_id, coin_pair, order_type, status, has_fills, quantity,
        limit_price, executed_quantity, executed_price_avg, fee⟩

/-- The order response payload (`struct OrderResponse`). -/
structure OrderResponse where
  order : Order

/-- A per-asset balance (`struct Balance`); both fields are value-as-string
fields. -/
structure Balance where
  available : ℚ
  total : ℚ
deriving DecidableEq, Repr

/-- The derived `Deserialize` for `Balance`. -/
def decodeBalance (j : Json) : Except String Balance := do
  let available ← fromStrField (← jGet j "available")
  let total ← fromStrField (← jGet j "total")
  pure ⟨available, total⟩

/-- Account balances (`struct BalancesResponse`). -/
structure BalancesResponse where
  bch : Balance
  brl : Balance
  btc : Balance
  eth : Balance
  ltc : Balance
  xrp : Balance
  mbprk01 : Balance
  mbprk02 : Balance
  mbprk03 : Balance
  mbprk04 : Balance
  mbcons01 : Balance
  usdc : Balance

/-- Withdrawal limits (`struct WithdrawalLimits`). -/
structure WithdrawalLimits where
  bch : Balance
  brl : Balance
  btc : Balance
  eth : Balance
  ltc : Balance
  xrp : Balance

/-- The account-info payload (`struct AccountInfoResponse`). -/
structure AccountInfoResponse where
  balance : BalancesResponse
  withdrawal_limits : WithdrawalLimits

/-! Fixed-point decimal formatting (the `format!` precision specifier
`{:.8}` / `{:.2}` on finite floats, lines 416-417), parameter-list
construction and the private operations. -/

/-- Rounding to the nearest integer, ties to even — the rounding Rust's
float formatting applies to the exact decimal value at the requested
precision — phrased on the numerator and (positive) denominator so that it
evaluates by integer arithmetic: `f` is the floor, and the remainder
`x - f = rn / den` is compared against one half. -/
def roundHalfEven (x : ℚ) : ℤ :=
  let f := x.num.fdiv x.den
  let rn := x.num - f * x.den
  if 2 * rn < (x.den : ℤ) then f
  else if (x.den : ℤ) < 2 * rn then f + 1
  else if f % 2 = 0 then f else f + 1

/-- The Rust `format!` fixed-precision rendering of a finite float value
(modelled by its exact rational) with `n > 0` digits after the point:
round the magnitude scaled by `10 ^ n` (formed on the numerator and
denominator directly) half-to-even, then print sign, integer part, a point,
and exactly `n` fraction digits. -/
def fmtFixed (q : ℚ) (n : ℕ) : String :=
  let neg := q.num < 0
  let a := (roundHalfEven (mkRat (Int.ofNat (q.num.natAbs * 10 ^ n)) q.den)).toNat
  (if neg then "-" else "") ++ Nat.repr (a / 10 ^ n) ++ "." ++
    String.mk ((List.range n).map (fun i => Nat.digitChar (a / 10 ^ (n - 1 - i) % 10)))

/-- Rust `bool::to_string`. -/
def boolToString (b : Bool) : String := if b then "true" else "false"

/-- The ordered parameter list of `Client::orderbook` (lines 343-348); the
nonce is the stringified wall-clock timestamp, supplied here as an input. -/
def orderbookParams (nonce : ℤ) (coin_pair : String) (full : Bool) : Query :=
  [("tapi_method", "list_orderbook"),
   ("tapi_nonce", toString nonce),
   ("coin_pair", coin_pair),
   ("full", boolToString full)]

/-- The ordered parameter list of `Client::place_order` (lines 412-418):
quantity rendered with `{:.8}`, limit price with `{:.2}`. -/
def placeOrderParams (order_type : OrderType) (nonce : ℤ) (coin_pair : String)
    (quantity limit_price : ℚ) : Query :=
  [("tapi_method", order_type.place_order_name),
   ("tapi_nonce", toString nonce),
   ("coin_pair", coin_pair),
   ("quantity", fmtFixed quantity 8),
   ("limit_price", fmtFixed limit_price 2)]

/-- The ordered parameter list of `Client::get_account_info` (lines
510-513). -/
def getAccountInfoParams (nonce : ℤ) : Query :=
  [("tapi_method", "get_account_info"),
   ("tapi_nonce", toString nonce)]

/-- The pre-request phase shared by every private operation, in source
order: `self.sign(&params)` (which unwraps the secret), then
`self.private_url()` and `self.identifier()` for the POST.  A `none` is an
abort on a missing credential, before any request is issued.  On success it
returns the form parameters, the signature (`TAPI-MAC`), the URL and the
identifier (`TAPI-ID`). -/
def privatePrep (c : Client) (params : Query) : Option (Query × String × String × String) := do
  let sig ← c.sign params
  let url ← c.private_url
  let pid ← c.identifier
  some (params, sig, url, pid)

/-- A transport collaborator: takes the form body, the `TAPI-MAC` signature,
the URL and the `TAPI-ID`, and returns either a transport/decode failure or
the decoded envelope. -/
def Transport (T : Type) : Type :=
  Query → String → String → String → Except ReqwestError (Response T)

/-- The common shape of a private operation: prepare (abort on missing
credentials), exchange, handle the envelope. -/
def privateOp {T : Type} (c : Client) (params : Query) (transport : Transport T) :
    Option (OpResult T) :=
  (privatePrep c params).map
    (fun pre => handleResponse (transport pre.1 pre.2.1 pre.2.2.1 pre.2.2.2))

/-- `Client::orderbook` (lines 336-367), with the wall clock and the HTTP
exchange supplied as inputs. -/
def Client.orderbook (c : Client) (nonce : ℤ) (coin_pair : String) (full : Bool)
    (transport : Transport OrderbookResponse) : Option (OpResult OrderbookResponse) :=
  privateOp c (orderbookParams nonce coin_pair full) transport

/-- `Client::place_order` (lines 403-437). -/
def Client.place_order (c : Client) (order_type : OrderType) (nonce : ℤ)
    (coin_pair : String) (quantity limit_price : ℚ)
    (transport : Transport OrderResponse) : Option (OpResult OrderResponse) :=
  privateOp c (placeOrderParams order_type nonce coin_pair quantity limit_price) transport

/-- `Client::place_buy_order` (lines 441-449). -/
def Client.place_buy_order (c : Client) (nonce : ℤ) (coin_pair : String)
    (quantity limit_price : ℚ) (transport : Transport OrderResponse) :
    Option (OpResult OrderResponse) :=
  c.place_order .Buy nonce coin_pair quantity limit_price transport

/-- `Client::place_sell_order` (lines 453-461). -/
def Client.place_sell_order (c : Client) (nonce : ℤ) (coin_pair : String)
    (quantity limit_price : ℚ) (transport : Transport OrderResponse) :
    Option (OpResult OrderResponse) :=
  c.place_order .Sell nonce coin_pair quantity limit_price transport

/-- `Client::get_account_info` (lines 507-532). -/
def Client.get_account_info (c : Client) (nonce : ℤ)
    (transport : Transport AccountInfoResponse) : Option (OpResult AccountInfoResponse) :=
  privateOp c (getAccountInfoParams nonce) transport

/-! The `mb_date` deserializer (lines 102-117): append the literal
`" 23:59:59.004011"` to the incoming string and parse with the chrono 0.4
format `%Y-%m-%d %H:%M:%S%.6f` (`Utc.datetime_from_str`).  Chrono's
`parse` is lenient around numeric items: every numeric item first trims
leading whitespace (`s.trim_left()`); `%Y` then accepts an explicit `+` or
`-` sign followed by an unbounded greedy digit run, and without a sign
reads at most 4 digits; the other numeric items read at most 2 digits;
the format's space is an `Item::Space`, matching any (possibly empty) run
of whitespace; the literal separators `-`, `:`, `.` match exactly with no
trimming; `%.6f` consumes the dot and exactly 6 digits; the whole input
must be consumed; and the collected fields must form a valid calendar
date (chrono's `NaiveDate` years span -262144..=262143) and clock time. -/

/-- A parsed timestamp, kept as calendar/clock fields; the year is signed
(`%Y` accepts an explicit sign) and `micro` is the microsecond count
parsed by `%.6f`. -/
structure MbTimestamp where
  year : ℤ
  month : ℕ
  day : ℕ
  hour : ℕ
  minute : ℕ
  second : ℕ
  micro : ℕ
deriving DecidableEq, Repr

/-- Greedy decimal-digit scan, bounded by a maximum digit count. -/
def takeDigitsUpTo : ℕ → List Char → ℕ → ℕ → ℕ × ℕ × List Char
  | 0, cs, v, c => (v, c, cs)
  | _ + 1, [], v, c => (v, c, [])
  | m + 1, ch :: rest, v, c =>
    if ch.isDigit then takeDigitsUpTo m rest (10 * v + (ch.toNat - 48)) (c + 1)
    else (v, c, ch :: rest)

/-- Match one exact literal character. -/
def expectChar (c : Char) : List Char → Option (List Char)
  | x :: rest => if x = c then some rest else none
  | [] => none

/-- The Unicode `White_Space` set — the characters Rust's
`str::trim_left` (now `trim_start`) removes. -/
def isRustWhitespace (c : Char) : Bool :=
  let n := c.toNat
  (9 ≤ n && n ≤ 13) || n == 32 || n == 0x85 || n == 0xA0 || n == 0x1680 ||
    (0x2000 ≤ n && n ≤ 0x200A) || n == 0x2028 || n == 0x2029 || n == 0x202F ||
    n == 0x205F || n == 0x3000

/-- Rust `str::trim_left`, applied by chrono before every numeric item and
for `Item::Space`. -/
def trimLeft (cs : List Char) : List Char := cs.dropWhile isRustWhitespace

/-- A chrono unsigned numeric item: trim leading whitespace, then read one
up to `max` digits greedily (`scan::number(s, 1, max)`); no digit is an
error. -/
def scanNum (max : ℕ) (cs : List Char) : Option (ℕ × List Char) :=
  match takeDigitsUpTo max (trimLeft cs) 0 0 with
  | (v, k, r) => if k = 0 then none else some (v, r)

/-- The chrono `%Y` item: trim leading whitespace; an explicit `+` or `-`
sign makes the greedy digit run unbounded, otherwise at most 4 digits are
read. -/
def scanYear (cs : List Char) : Option (ℤ × List Char) :=
  match trimLeft cs with
  | [] => none
  | c :: rest =>
    if c = '-' then
      match takeDigitsAll rest 0 0 with
      | (v, k, r) => if k = 0 then none else some (-(v : ℤ), r)
    else if c = '+' then
      match takeDigitsAll rest 0 0 with
      | (v, k, r) => if k = 0 then none else some ((v : ℤ), r)
    else
      match takeDigitsUpTo 4 (c :: rest) 0 0 with
      | (v, k, r) => if k = 0 then none else some ((v : ℤ), r)

/-- Proleptic Gregorian leap year (chrono's calendar; years are signed). -/
def isLeapYear (y : ℤ) : Bool :=
  (y % 4 == 0 && y % 100 != 0) || y % 400 == 0

/-- Days in a month. -/
def daysInMonth (y : ℤ) (m : ℕ) : ℕ :=
  if m = 2 then (if isLeapYear y then 29 else 28)
  else if m = 4 ∨ m = 6 ∨ m = 9 ∨ m = 11 then 30
  else 31

/-- Calendar validity of a year/month/day triple, including chrono's
`NaiveDate` year range. -/
def validDate (y : ℤ) (m d : ℕ) : Bool :=
  decide (-262144 ≤ y) && decide (y ≤ 262143) && decide (1 ≤ m) && decide (m ≤ 12) &&
    decide (1 ≤ d) && decide (d ≤ daysInMonth y m)

/-- Parse `%Y-%m-%d` under chrono's rules (whitespace trimmed before each
numeric item, exact `-` literals), returning the components and the
unconsumed rest. -/
def parseYmd (cs : List Char) : Option (ℤ × ℕ × ℕ × List Char) :=
  match scanYear cs with
  | none => none
  | some (y, r1) =>
    match expectChar '-' r1 with
    | none => none
    | some r2 =>
      match scanNum 2 r2 with
      | none => none
      | some (mo, r3) =>
        match expectChar '-' r3 with
        | none => none
        | some r4 =>
          match scanNum 2 r4 with
          | none => none
          | some (dy, r5) => some (y, mo, dy, r5)

/-- Parse the format tail `⟨space⟩%H:%M:%S%.6f` and require the input to
end there.  The `Item::Space` trim and the trim of the numeric `%H` are
adjacent, so they collapse into the single trim inside `scanNum`; the `:`
and `.` literals match exactly; `%.6f` is the dot plus exactly six
digits. -/
def parseTimeTail (cs : List Char) : Option (ℕ × ℕ × ℕ × ℕ) :=
  match scanNum 2 cs with
  | none => none
  | some (h, r1) =>
    match expectChar ':' r1 with
    | none => none
    | some r2 =>
      match scanNum 2 r2 with
      | none => none
      | some (mi, r3) =>
        match expectChar ':' r3 with
        | none => none
        | some r4 =>
          match scanNum 2 r4 with
          | none => none
          | some (sec, r5) =>
            match expectChar '.' r5 with
            | none => none
            | some r6 =>
              match takeDigitsUpTo 6 r6 0 0 with
              | (mic, micc, r7) =>
                if micc = 6 ∧ r7 = [] ∧ h ≤ 23 ∧ mi ≤ 59 ∧ sec ≤ 59
                then some (h, mi, sec, mic)
                else none

/-- Acceptance of the user-supplied part alone: a lenient `%Y-%m-%d`
(optional whitespace before each numeric field, optionally signed year)
followed by whitespace only, forming a valid calendar date. -/
def parseDateOnly (cs : List Char) : Option (ℤ × ℕ × ℕ) :=
  match parseYmd cs with
  | some (y, m, d, rest) =>
    if rest.all isRustWhitespace ∧ validDate y m d then some (y, m, d) else none
  | none => none

/-- The full chrono parse of `%Y-%m-%d %H:%M:%S%.6f`. -/
def parseMbDateTime (cs : List Char) : Option MbTimestamp :=
  match parseYmd cs with
  | some (y, m, d, rest) =>
    match parseTimeTail rest with
    | some (h, mi, s, mic) =>
      if validDate y m d then some ⟨y, m, d, h, mi, s, mic⟩ else none
    | none => none
  | none => none

/-- The fixed literal the source appends to the incoming date string. -/
def mbDateLiteral : String := " 23:59:59.004011"

/-- `mb_date::deserialize` after the JSON string has been extracted: format
the concatenation and parse it with `%Y-%m-%d %H:%M:%S%.6f`. -/
def mbDateDeserialize (s : String) : Option MbTimestamp :=
  parseMbDateTime (s.data ++ mbDateLiteral.data)

/-- Zero-padded four-digit rendering of a year below 10000. -/
def pad4 (n : ℕ) : String :=
  String.mk [Nat.digitChar (n / 1000 % 10), Nat.digitChar (n / 100 % 10),
             Nat.digitChar (n / 10 % 10), Nat.digitChar (n % 10)]

/-- Zero-padded two-digit rendering of a value below 100. -/
def pad2 (n : ℕ) : String :=
  String.mk [Nat.digitChar (n / 10 % 10), Nat.digitChar (n % 10)]

/-- The number of characters strictly after the last `.` of a string (the
whole string when no `.` occurs). -/
def decimalsAfterPoint (s : String) : ℕ :=
  (s.data.reverse.takeWhile (fun c => c ≠ '.')).length

/-- The exact rational value of the `f64` nearest to the decimal 200.1234
(IEEE-754 round-to-nearest), the value `place_order` receives for the
spec's `limit_price = 200.1234` scenario. -/
def f64val200_1234 : ℚ := mkRat 3520608084641081 (2 ^ 44)

/-! Decoding companions used to establish that the encoding side of the
signing pipeline is injective (prefix codes): a lax UTF-8 decoder and a lax
form-url decoder, each reading exactly one encoded unit. -/

/-- Lax decode of one UTF-8-encoded scalar: the first byte determines the
length, the payload bits are recombined without validation. -/
def utf8DecodeOne : List Nat → Option (Nat × List Nat)
  | [] => none
  | b :: rest =>
    if b < 0x80 then some (b, rest)
    else if b < 0xE0 then
      match rest with
      | c2 :: rest2 => some ((b - 0xC0) * 0x40 + (c2 - 0x80), rest2)
      | [] => none
    else if b < 0xF0 then
      match rest with
      | c2 :: c3 :: rest2 =>
        some ((b - 0xE0) * 0x1000 + (c2 - 0x80) * 0x40 + (c3 - 0x80), rest2)
      | _ => none
    else
      match rest with
      | c2 :: c3 :: c4 :: rest2 =>
        some ((b - 0xF0) * 0x40000 + (c2 - 0x80) * 0x1000 + (c3 - 0x80) * 0x40 +
          (c4 - 0x80), rest2)
      | _ => none

/-- Numeric value of an uppercase hexadecimal digit character. -/
def hexUpperVal (c : Char) : Nat :=
  if c.toNat ≤ 57 then c.toNat - 48 else c.toNat - 55

/-- Lax decode of one form-url-encoded byte: `+` is a space, `%XX` is a hex
escape, anything else stands for itself. -/
def formUrlDecodeOne : List Char → Option (Nat × List Char)
  | [] => none
  | c :: rest =>
    if c = '+' then some (32, rest)
    else if c = '%' then
      match rest with
      | a :: b :: rest2 => some (hexUpperVal a * 16 + hexUpperVal b, rest2)
      | _ => none
    else some (c.toNat, rest)

/-- The character stream of the form-url-encoding of a byte list. -/
def formUrlEncodeBytesData (bs : List Nat) : List Char :=
  bs.foldr (fun b r => (formUrlEncodeByte b).data ++ r) []

/-! Theorems. -/

/-- A `takeWhile` over a satisfied prefix stops exactly at a failing
element. -/
theorem takeWhile_all_append_stop {p : Char → Bool} {l1 l2 : List Char} {a : Char}
    (h1 : ∀ x ∈ l1, p x) (h2 : p a = false) :
    List.takeWhile p (l1 ++ a :: l2) = l1 := by
  induction l1 with
  | nil => simp [List.takeWhile_cons, h2]
  | cons x xs ih =>
    have hx := h1 x (by simp)
    simp only [List.cons_append, List.takeWhile_cons, hx, if_true]
    exact congrArg (x :: ·) (ih (fun y hy => h1 y (by simp [hy])))

/-- A digit character produced by `Nat.digitChar` of a value below ten is
never a point. -/
theorem digitChar_mod_ne_dot (k : ℕ) : (Nat.digitChar (k % 10) ≠ '.') := by
  have h : k % 10 < 10 := Nat.mod_lt _ (by norm_num)
  set m := k % 10 with hm
  interval_cases m <;> decide

/-- Every status variant's discriminant is one of the documented codes. -/
theorem apiStatus_code_mem_documented (s : ApiStatus) : s.code ∈ documentedCodes := by
  cases s <;> decide

/-- The fraction part that `fmtFixed` renders after the point has exactly
`n` characters, for every rational input. -/
theorem fmtFixed_decimals (q : ℚ) (n : ℕ) : decimalsAfterPoint (fmtFixed q n) = n := by
  unfold fmtFixed decimalsAfterPoint
  set a := (roundHalfEven (mkRat (Int.ofNat (q.num.natAbs * 10 ^ n)) q.den)).toNat with ha
  set ds := (List.range n).map (fun i => Nat.digitChar (a / 10 ^ (n - 1 - i) % 10)) with hds
  have hdata :
      ((if q.num < 0 then "-" else "") ++ Nat.repr (a / 10 ^ n) ++ "." ++ String.mk ds).data
        = ((if q.num < 0 then "-" else "").data ++ (Nat.repr (a / 10 ^ n)).data ++ ['.']) ++ ds := by
    simp [String.data_append]
  rw [hdata, List.reverse_append]
  have hrev :
      (((if q.num < 0 then "-" else "").data ++ (Nat.repr (a / 10 ^ n)).data ++ ['.'])).reverse
        = '.' :: ((if q.num < 0 then "-" else "").data ++ (Nat.repr (a / 10 ^ n)).data).reverse := by
    simp
  rw [hrev, takeWhile_all_append_stop, List.length_reverse, hds]
  · simp
  · intro x hx
    rw [List.mem_reverse, hds] at hx
    obtain ⟨i, _, hi⟩ := List.mem_map.mp hx
    subst hi
    exact decide_eq_true (digitChar_mod_ne_dot _)
  · decide

/-- C4: `place_order` renders the quantity with exactly 8 and the limit
price with exactly 2 decimal places (fixed-point, not the default float
display), and on the spec's scenario `quantity = 1.5`,
`limit_price = 200.1234` (the latter given by its exact `f64` value) the
parameter list carries `"1.50000000"` and `"200.12"`. -/
theorem place_order_fixed_point_formatting (order_type : OrderType) (nonce : ℤ)
    (coin_pair : String) (quantity limit_price : ℚ) :
    decimalsAfterPoint (fmtFixed quantity 8) = 8 ∧
    decimalsAfterPoint (fmtFixed limit_price 2) = 2 ∧
    fmtFixed (mkRat 3 2) 8 = "1.50000000" ∧
    fmtFixed f64val200_1234 2 = "200.12" ∧
    placeOrderParams order_type nonce coin_pair (mkRat 3 2) f64val200_1234 =
      [("tapi_method", order_type.place_order_name), ("tapi_nonce", toString nonce),
       ("coin_pair", coin_pair), ("quantity", "1.50000000"), ("limit_price", "200.12")] := by
  have h8 : fmtFixed (mkRat 3 2) 8 = "1.50000000" := by decide
  have h2 : fmtFixed f64val200_1234 2 = "200.12" := by decide
  exact ⟨fmtFixed_decimals quantity 8, fmtFixed_decimals limit_price 2, h8, h2, by
    simp only [placeOrderParams, h8, h2]⟩

/-- Appending a non-digit-headed suffix does not change what a bounded digit
scan consumes; the suffix just rides along on the rest. -/
theorem takeDigitsUpTo_append (m : ℕ) (xs l : List Char) (v c : ℕ)
    (hl : ∀ ch, l.head? = some ch → ch.isDigit = false) :
    takeDigitsUpTo m (xs ++ l) v c =
      ((takeDigitsUpTo m xs v c).1, (takeDigitsUpTo m xs v c).2.1,
       (takeDigitsUpTo m xs v c).2.2 ++ l) := by
  induction m generalizing xs v c with
  | zero => rfl
  | succ m ih =>
    cases xs with
    | nil =>
      cases l with
      | nil => rfl
      | cons ch rest =>
        have hd := hl ch rfl
        simp [takeDigitsUpTo, hd]
    | cons x xt =>
      by_cases hx : x.isDigit
      · simp only [List.cons_append, takeDigitsUpTo, hx, if_true]
        exact ih xt _ _
      · simp [takeDigitsUpTo, hx]

/-- A bounded digit scan consumes at most its bound. -/
theorem takeDigitsUpTo_length (m : ℕ) (cs : List Char) (v c : ℕ) :
    cs.length ≤ m + (takeDigitsUpTo m cs v c).2.2.length := by
  induction m generalizing cs v c with
  | zero => simp [takeDigitsUpTo]
  | succ m ih =>
    cases cs with
    | nil => simp [takeDigitsUpTo]
    | cons x xt =>
      by_cases hx : x.isDigit
      · simp only [takeDigitsUpTo, hx, if_true, List.length_cons]
        have := ih xt (10 * v + (x.toNat - 48)) (c + 1)
        omega
      · simp only [takeDigitsUpTo, hx, Bool.false_eq_true, if_false, List.length_cons]
        omega

/-- A successful literal-character match consumes exactly one character. -/
theorem expectChar_some_length {ch : Char} {cs r : List Char}
    (h : expectChar ch cs = some r) : cs.length = r.length + 1 := by
  cases cs with
  | nil => simp [expectChar] at h
  | cons x xt =>
    simp only [expectChar] at h
    by_cases hx : x = ch
    · rw [if_pos hx] at h
      cases h
      simp
    · rw [if_neg hx] at h
      cases h

/-- Trimming drops nothing when the head is not whitespace. -/
theorem trimLeft_cons_of_not_ws {c : Char} (l : List Char)
    (h : isRustWhitespace c = false) : trimLeft (c :: l) = c :: l := by
  simp [trimLeft, List.dropWhile_cons, h]

/-- An all-whitespace prefix is dropped entirely by the trim. -/
theorem trimLeft_append_nil {l1 : List Char} (l2 : List Char)
    (h : trimLeft l1 = []) : trimLeft (l1 ++ l2) = trimLeft l2 := by
  unfold trimLeft at h ⊢
  rw [List.dropWhile_append, h]
  rfl

/-- Trimming commutes with appending when the trimmed part is nonempty. -/
theorem trimLeft_append_cons {l1 : List Char} (l2 : List Char) {c : Char} {r : List Char}
    (h : trimLeft l1 = c :: r) : trimLeft (l1 ++ l2) = c :: (r ++ l2) := by
  unfold trimLeft at h ⊢
  rw [List.dropWhile_append, h]
  rfl

/-- An unsigned numeric scan depends on its input only through the trim. -/
theorem scanNum_congr (m : ℕ) {a b : List Char} (h : trimLeft a = trimLeft b) :
    scanNum m a = scanNum m b := by
  unfold scanNum
  rw [h]

/-- The year scan depends on its input only through the trim. -/
theorem scanYear_congr {a b : List Char} (h : trimLeft a = trimLeft b) :
    scanYear a = scanYear b := by
  unfold scanYear
  rw [h]

/-- Appending a non-digit-headed suffix does not change what the unbounded
digit scan consumes; the suffix just rides along on the rest. -/
theorem takeDigitsAll_append (xs l : List Char) (v c : ℕ)
    (hl : ∀ ch, l.head? = some ch → ch.isDigit = false) :
    takeDigitsAll (xs ++ l) v c =
      ((takeDigitsAll xs v c).1, (takeDigitsAll xs v c).2.1,
       (takeDigitsAll xs v c).2.2 ++ l) := by
  induction xs generalizing v c with
  | nil =>
    cases l with
    | nil => rfl
    | cons ch rest =>
      have hd := hl ch rfl
      simp [takeDigitsAll, hd]
  | cons x xt ih =>
    by_cases hx : x.isDigit
    · simp only [List.cons_append, takeDigitsAll, hx, if_true]
      exact ih _ _
    · simp [takeDigitsAll, hx]

/-- A successful unsigned numeric scan is unchanged by appending the date
literal: a success never stops inside the trim, and the literal's head is
not a digit. -/
theorem scanNum_append_some {m : ℕ} {X : List Char} {v : ℕ} {rX : List Char}
    (h : scanNum m X = some (v, rX)) :
    scanNum m (X ++ mbDateLiteral.data) = some (v, rX ++ mbDateLiteral.data) := by
  unfold scanNum at h ⊢
  cases ht : trimLeft X with
  | nil =>
    rw [ht] at h
    cases m with
    | zero => simp [takeDigitsUpTo] at h
    | succ m => simp [takeDigitsUpTo] at h
  | cons c rt =>
    rw [ht] at h
    rw [trimLeft_append_cons mbDateLiteral.data ht,
      show c :: (rt ++ mbDateLiteral.data) = (c :: rt) ++ mbDateLiteral.data from rfl,
      takeDigitsUpTo_append m (c :: rt) mbDateLiteral.data 0 0 (by decide)]
    rcases e : takeDigitsUpTo m (c :: rt) 0 0 with ⟨v2, k2, r2⟩
    rw [e] at h
    dsimp only at h ⊢
    by_cases hk : k2 = 0
    · rw [if_pos hk] at h; cases h
    · rw [if_neg hk] at h ⊢
      injection h with h2
      injection h2 with hv hr
      rw [hv, hr]

/-- A two-digit numeric scan over input followed by the date literal either
restricts to the input, or the input was all whitespace and the scan dipped
into the literal, reading its `23`. -/
theorem scanNum2_append_inv {X : List Char} {v : ℕ} {r : List Char}
    (h : scanNum 2 (X ++ mbDateLiteral.data) = some (v, r)) :
    (∃ rX, scanNum 2 X = some (v, rX) ∧ r = rX ++ mbDateLiteral.data) ∨
      ((∀ ch ∈ X, isRustWhitespace ch = true) ∧ v = 23 ∧ r = (":59:59.004011").data) := by
  cases ht : trimLeft X with
  | nil =>
    right
    refine ⟨List.dropWhile_eq_nil_iff.mp ht, ?_⟩
    rw [scanNum_congr 2 (trimLeft_append_nil mbDateLiteral.data ht),
      (by decide : scanNum 2 mbDateLiteral.data = some (23, (":59:59.004011").data))] at h
    injection h with h2
    injection h2 with hv hr
    exact ⟨hv.symm, hr.symm⟩
  | cons c rt =>
    left
    unfold scanNum at h ⊢
    rw [trimLeft_append_cons mbDateLiteral.data ht,
      show c :: (rt ++ mbDateLiteral.data) = (c :: rt) ++ mbDateLiteral.data from rfl,
      takeDigitsUpTo_append 2 (c :: rt) mbDateLiteral.data 0 0 (by decide)] at h
    rw [ht]
    rcases e : takeDigitsUpTo 2 (c :: rt) 0 0 with ⟨v2, k2, r2⟩
    rw [e] at h
    dsimp only at h ⊢
    by_cases hk : k2 = 0
    · rw [if_pos hk] at h; cases h
    · rw [if_neg hk] at h ⊢
      injection h with h2
      injection h2 with hv hr
      exact ⟨r2, by rw [hv], hr.symm⟩

/-- A successful year scan is unchanged by appending the date literal. -/
theorem scanYear_append_some {X : List Char} {y : ℤ} {rX : List Char}
    (h : scanYear X = some (y, rX)) :
    scanYear (X ++ mbDateLiteral.data) = some (y, rX ++ mbDateLiteral.data) := by
  unfold scanYear at h ⊢
  cases ht : trimLeft X with
  | nil => rw [ht] at h; cases h
  | cons c rt =>
    rw [ht] at h
    rw [trimLeft_append_cons mbDateLiteral.data ht]
    dsimp only at h ⊢
    by_cases hc : c = '-'
    · rw [if_pos hc] at h ⊢
      rw [takeDigitsAll_append rt mbDateLiteral.data 0 0 (by decide)]
      rcases e : takeDigitsAll rt 0 0 with ⟨v2, k2, r2⟩
      rw [e] at h
      dsimp only at h ⊢
      by_cases hk : k2 = 0
      · rw [if_pos hk] at h; cases h
      · rw [if_neg hk] at h ⊢
        injection h with h2
        injection h2 with hy hr
        rw [hy, hr]
    · rw [if_neg hc] at h ⊢
      by_cases hc2 : c = '+'
      · rw [if_pos hc2] at h ⊢
        rw [takeDigitsAll_append rt mbDateLiteral.data 0 0 (by decide)]
        rcases e : takeDigitsAll rt 0 0 with ⟨v2, k2, r2⟩
        rw [e] at h
        dsimp only at h ⊢
        by_cases hk : k2 = 0
        · rw [if_pos hk] at h; cases h
        · rw [if_neg hk] at h ⊢
          injection h with h2
          injection h2 with hy hr
          rw [hy, hr]
      · rw [if_neg hc2] at h ⊢
        rw [show c :: (rt ++ mbDateLiteral.data) = (c :: rt) ++ mbDateLiteral.data from rfl,
          takeDigitsUpTo_append 4 (c :: rt) mbDateLiteral.data 0 0 (by decide)]
        rcases e : takeDigitsUpTo 4 (c :: rt) 0 0 with ⟨v2, k2, r2⟩
        rw [e] at h
        dsimp only at h ⊢
        by_cases hk : k2 = 0
        · rw [if_pos hk] at h; cases h
        · rw [if_neg hk] at h ⊢
          injection h with h2
          injection h2 with hy hr
          rw [hy, hr]

/-- A year scan over input followed by the date literal either restricts to
the input, or the input was all whitespace and the scan dipped into the
literal, reading its `23`. -/
theorem scanYear_append_inv {X : List Char} {y : ℤ} {r : List Char}
    (h : scanYear (X ++ mbDateLiteral.data) = some (y, r)) :
    (∃ rX, scanYear X = some (y, rX) ∧ r = rX ++ mbDateLiteral.data) ∨
      ((∀ ch ∈ X, isRustWhitespace ch = true) ∧ y = 23 ∧ r = (":59:59.004011").data) := by
  cases ht : trimLeft X with
  | nil =>
    right
    refine ⟨List.dropWhile_eq_nil_iff.mp ht, ?_⟩
    rw [scanYear_congr (trimLeft_append_nil mbDateLiteral.data ht),
      (by decide : scanYear mbDateLiteral.data =
        some ((23 : ℤ), (":59:59.004011").data))] at h
    injection h with h2
    injection h2 with hy hr
    exact ⟨hy.symm, hr.symm⟩
  | cons c rt =>
    left
    unfold scanYear at h ⊢
    rw [trimLeft_append_cons mbDateLiteral.data ht] at h
    rw [ht]
    dsimp only at h ⊢
    by_cases hc : c = '-'
    · rw [if_pos hc] at h ⊢
      rw [takeDigitsAll_append rt mbDateLiteral.data 0 0 (by decide)] at h
      rcases e : takeDigitsAll rt 0 0 with ⟨v2, k2, r2⟩
      rw [e] at h
      dsimp only at h ⊢
      by_cases hk : k2 = 0
      · rw [if_pos hk] at h; cases h
      · rw [if_neg hk] at h ⊢
        injection h with h2
        injection h2 with hy hr
        exact ⟨r2, by rw [hy], hr.symm⟩
    · rw [if_neg hc] at h ⊢
      by_cases hc2 : c = '+'
      · rw [if_pos hc2] at h ⊢
        rw [takeDigitsAll_append rt mbDateLiteral.data 0 0 (by decide)] at h
        rcases e : takeDigitsAll rt 0 0 with ⟨v2, k2, r2⟩
        rw [e] at h
        dsimp only at h ⊢
        by_cases hk : k2 = 0
        · rw [if_pos hk] at h; cases h
        · rw [if_neg hk] at h ⊢
          injection h with h2
          injection h2 with hy hr
          exact ⟨r2, by rw [hy], hr.symm⟩
      · rw [if_neg hc2] at h ⊢
        rw [show c :: (rt ++ mbDateLiteral.data) = (c :: rt) ++ mbDateLiteral.data from rfl,
          takeDigitsUpTo_append 4 (c :: rt) mbDateLiteral.data 0 0 (by decide)] at h
        rcases e : takeDigitsUpTo 4 (c :: rt) 0 0 with ⟨v2, k2, r2⟩
        rw [e] at h
        dsimp only at h ⊢
        by_cases hk : k2 = 0
        · rw [if_pos hk] at h; cases h
        · rw [if_neg hk] at h ⊢
          injection h with h2
          injection h2 with hy hr
          exact ⟨r2, by rw [hy], hr.symm⟩

/-- Matching the literal character at the head succeeds and consumes it. -/
theorem expectChar_cons_self (c : Char) (l : List Char) :
    expectChar c (c :: l) = some l := by
  simp [expectChar]

/-- A date-prefix parse that succeeds on the input alone is unchanged by
appending the date literal. -/
theorem parseYmd_append_some {X : List Char} {y : ℤ} {mo dy : ℕ} {r : List Char}
    (h : parseYmd X = some (y, mo, dy, r)) :
    parseYmd (X ++ mbDateLiteral.data) = some (y, mo, dy, r ++ mbDateLiteral.data) := by
  unfold parseYmd at h ⊢
  cases e1 : scanYear X with
  | none => rw [e1] at h; cases h
  | some p1 =>
    rcases p1 with ⟨y2, r1⟩
    rw [e1] at h
    rw [scanYear_append_some e1]
    dsimp only at h ⊢
    cases r1 with
    | nil => simp [expectChar] at h
    | cons a rt =>
      by_cases ha : a = '-'
      · subst ha
        rw [show ('-' :: rt) ++ mbDateLiteral.data =
          '-' :: (rt ++ mbDateLiteral.data) from rfl]
        rw [expectChar_cons_self] at h ⊢
        dsimp only at h ⊢
        cases e2 : scanNum 2 rt with
        | none => rw [e2] at h; cases h
        | some p2 =>
          rcases p2 with ⟨mo2, r3⟩
          rw [e2] at h
          rw [scanNum_append_some e2]
          dsimp only at h ⊢
          cases r3 with
          | nil => simp [expectChar] at h
          | cons b rbt =>
            by_cases hb : b = '-'
            · subst hb
              rw [show ('-' :: rbt) ++ mbDateLiteral.data =
                '-' :: (rbt ++ mbDateLiteral.data) from rfl]
              rw [expectChar_cons_self] at h ⊢
              dsimp only at h ⊢
              cases e3 : scanNum 2 rbt with
              | none => rw [e3] at h; cases h
              | some p3 =>
                rcases p3 with ⟨dy2, r5⟩
                rw [e3] at h
                rw [scanNum_append_some e3]
                dsimp only at h ⊢
                injection h with h2
                injection h2 with hy h3
                injection h3 with hmo h4
                injection h4 with hdy hr
                rw [hy, hmo, hdy, hr]
            · simp [expectChar, hb] at h
      · simp [expectChar, ha] at h

/-- A date-prefix parse over input followed by the date literal either
restricts to the input, or the day scan dipped into the literal, leaving
the literal's time tail as the rest. -/
theorem parseYmd_append_inv {X : List Char} {y : ℤ} {mo dy : ℕ} {R : List Char}
    (h : parseYmd (X ++ mbDateLiteral.data) = some (y, mo, dy, R)) :
    (∃ rX, parseYmd X = some (y, mo, dy, rX) ∧ R = rX ++ mbDateLiteral.data) ∨
      R = (":59:59.004011").data := by
  unfold parseYmd at h
  cases e1 : scanYear (X ++ mbDateLiteral.data) with
  | none => rw [e1] at h; cases h
  | some p1 =>
    rcases p1 with ⟨y2, r1⟩
    rw [e1] at h
    dsimp only at h
    rcases scanYear_append_inv e1 with ⟨rY, hY, hr1⟩ | ⟨hws1, hy23, hr1⟩
    · subst hr1
      cases rY with
      | nil =>
        rw [List.nil_append,
          (by decide : expectChar '-' mbDateLiteral.data = none)] at h
        cases h
      | cons a rt =>
        by_cases ha : a = '-'
        · subst ha
          rw [List.cons_append, expectChar_cons_self] at h
          dsimp only at h
          cases e2 : scanNum 2 (rt ++ mbDateLiteral.data) with
          | none => rw [e2] at h; cases h
          | some p2 =>
            rcases p2 with ⟨mo2, r3⟩
            rw [e2] at h
            dsimp only at h
            rcases scanNum2_append_inv e2 with ⟨rM, hM, hr3⟩ | ⟨hws2, hmo23, hr3⟩
            · subst hr3
              cases rM with
              | nil =>
                rw [List.nil_append,
                  (by decide : expectChar '-' mbDateLiteral.data = none)] at h
                cases h
              | cons b rbt =>
                by_cases hb : b = '-'
                · subst hb
                  rw [List.cons_append, expectChar_cons_self] at h
                  dsimp only at h
                  cases e3 : scanNum 2 (rbt ++ mbDateLiteral.data) with
                  | none => rw [e3] at h; cases h
                  | some p3 =>
                    rcases p3 with ⟨dy2, r5⟩
                    rw [e3] at h
                    dsimp only at h
                    injection h with h2
                    injection h2 with hy2 h3
                    injection h3 with hmo2 h4
                    injection h4 with hdy2 hr5R
                    rcases scanNum2_append_inv e3 with ⟨rD, hD, hr5⟩ | ⟨hws3, hdy23, hr5⟩
                    · refine Or.inl ⟨rD, ?_, ?_⟩
                      · unfold parseYmd
                        rw [hY]
                        dsimp only
                        simp only [expectChar, if_pos rfl, if_true]
                        rw [hM]
                        dsimp only
                        simp only [expectChar, if_pos rfl, if_true]
                        rw [hD]
                        dsimp only
                        rw [hy2, hmo2, hdy2]
                      · rw [← hr5R, hr5]
                    · exact Or.inr (by rw [← hr5R, hr5])
                · simp only [List.cons_append, expectChar] at h
                  rw [if_neg hb] at h
                  cases h
            · subst hr3
              rw [(by decide : expectChar '-' ((":59:59.004011").data) = none)] at h
              cases h
        · simp only [List.cons_append, expectChar] at h
          rw [if_neg ha] at h
          cases h
    · subst hr1
      rw [(by decide : expectChar '-' ((":59:59.004011").data) = none)] at h
      cases h

/-- On an all-whitespace remainder followed by the date literal, the time
tail parses to the literal clock time 23:59:59 and microsecond field
004011: the `Item::Space` run absorbs the whitespace and the literal's
leading space. -/
theorem parseTimeTail_ws {X : List Char}
    (h : ∀ ch ∈ X, isRustWhitespace ch = true) :
    parseTimeTail (X ++ mbDateLiteral.data) = some (23, 59, 59, 4011) := by
  have ht : trimLeft X = [] := List.dropWhile_eq_nil_iff.mpr h
  have h1 : scanNum 2 (X ++ mbDateLiteral.data) = scanNum 2 mbDateLiteral.data :=
    scanNum_congr 2 (trimLeft_append_nil mbDateLiteral.data ht)
  unfold parseTimeTail
  rw [h1]
  decide

/-- Conversely, if the time tail succeeds on a remainder followed by the
date literal, the remainder was all whitespace and the parsed time is the
literal one: the exact `:` and `.` literals and the full-consumption
requirement pin every numeric field to the appended literal. -/
theorem parseTimeTail_append_inv {X : List Char} {t : ℕ × ℕ × ℕ × ℕ}
    (h : parseTimeTail (X ++ mbDateLiteral.data) = some t) :
    (∀ ch ∈ X, isRustWhitespace ch = true) ∧ t = (23, 59, 59, 4011) := by
  by_cases hX : ∀ ch ∈ X, isRustWhitespace ch = true
  · refine ⟨hX, ?_⟩
    rw [parseTimeTail_ws hX] at h
    exact (Option.some.inj h).symm
  · exfalso
    unfold parseTimeTail at h
    cases e1 : scanNum 2 (X ++ mbDateLiteral.data) with
    | none => rw [e1] at h; cases h
    | some p1 =>
      rcases p1 with ⟨hv, r1⟩
      rw [e1] at h
      dsimp only at h
      rcases scanNum2_append_inv e1 with ⟨rH, hH, hr1⟩ | ⟨hws, hv23, hr1⟩
      · subst hr1
        cases rH with
        | nil =>
          rw [List.nil_append,
            (by decide : expectChar ':' mbDateLiteral.data = none)] at h
          cases h
        | cons a rt =>
          by_cases ha : a = ':'
          · subst ha
            rw [List.cons_append, expectChar_cons_self] at h
            dsimp only at h
            cases e2 : scanNum 2 (rt ++ mbDateLiteral.data) with
            | none => rw [e2] at h; cases h
            | some p2 =>
              rcases p2 with ⟨mv, r3⟩
              rw [e2] at h
              dsimp only at h
              rcases scanNum2_append_inv e2 with ⟨rM, hM, hr3⟩ | ⟨hws2, hmv23, hr3⟩
              · subst hr3
                cases rM with
                | nil =>
                  rw [List.nil_append,
                    (by decide : expectChar ':' mbDateLiteral.data = none)] at h
                  cases h
                | cons b rbt =>
                  by_cases hb : b = ':'
                  · subst hb
                    rw [List.cons_append, expectChar_cons_self] at h
                    dsimp only at h
                    cases e3 : scanNum 2 (rbt ++ mbDateLiteral.data) with
                    | none => rw [e3] at h; cases h
                    | some p3 =>
                      rcases p3 with ⟨sv, r5⟩
                      rw [e3] at h
                      dsimp only at h
                      rcases scanNum2_append_inv e3 with ⟨rS, hS, hr5⟩ | ⟨hws3, hsv23, hr5⟩
                      · subst hr5
                        cases rS with
                        | nil =>
                          rw [List.nil_append,
                            (by decide : expectChar '.' mbDateLiteral.data = none)] at h
                          cases h
                        | cons d rdt =>
                          by_cases hd : d = '.'
                          · subst hd
                            rw [List.cons_append, expectChar_cons_self] at h
                            dsimp only at h
                            rw [takeDigitsUpTo_append 6 rdt mbDateLiteral.data 0 0
                              (by decide)] at h
                            rcases e4 : takeDigitsUpTo 6 rdt 0 0 with ⟨micv, micc, r7⟩
                            rw [e4] at h
                            dsimp only at h
                            rw [if_neg (fun hcond =>
                              (by decide : mbDateLiteral.data ≠ [])
                                (List.append_eq_nil.mp hcond.2.1).2)] at h
                            cases h
                          · simp only [List.cons_append, expectChar] at h
                            rw [if_neg hd] at h
                            cases h
                      · subst hr5
                        rw [(by decide :
                          expectChar '.' ((":59:59.004011").data) = none)] at h
                        cases h
                  · simp only [List.cons_append, expectChar] at h
                    rw [if_neg hb] at h
                    cases h
              · subst hr3
                rw [(by decide : expectChar ':' ((":59:59.004011").data) =
                  some (("59:59.004011").data))] at h
                dsimp only at h
                rw [(by decide : scanNum 2 (("59:59.004011").data) =
                  some (59, ((":59.004011").data)))] at h
                dsimp only at h
                rw [(by decide : expectChar '.' ((":59.004011").data) = none)] at h
                cases h
          · simp only [List.cons_append, expectChar] at h
            rw [if_neg ha] at h
            cases h
      · exact hX hws

/-- The `mb_date` deserializer characterized: it succeeds exactly on
lenient date-only inputs (an optionally whitespace-preceded, optionally
signed year, month and day, followed by whitespace only), and then yields
that calendar day with the literal time-of-day 23:59:59.004011. -/
theorem mbDate_characterize (s : String) :
    mbDateDeserialize s =
      (parseDateOnly s.data).map
        (fun t => (⟨t.1, t.2.1, t.2.2, 23, 59, 59, 4011⟩ : MbTimestamp)) := by
  unfold mbDateDeserialize parseMbDateTime parseDateOnly
  cases hp : parseYmd (s.data ++ mbDateLiteral.data) with
  | none =>
    cases hq : parseYmd s.data with
    | none => rfl
    | some q =>
      rcases q with ⟨y, mo, dy, r⟩
      have h2 := parseYmd_append_some hq
      rw [hp] at h2
      cases h2
  | some p =>
    rcases p with ⟨y, mo, dy, R⟩
    dsimp only
    rcases parseYmd_append_inv hp with ⟨rX, hX, hR⟩ | hR
    · subst hR
      cases hq : parseYmd s.data with
      | none => rw [hq] at hX; cases hX
      | some q =>
        rw [hq] at hX
        injection hX with hq2
        subst hq2
        dsimp only
        cases ht : parseTimeTail (rX ++ mbDateLiteral.data) with
        | none =>
          by_cases hc : rX.all isRustWhitespace ∧ validDate y mo dy
          · exfalso
            have h2 := parseTimeTail_ws (List.all_eq_true.mp hc.1)
            rw [ht] at h2
            cases h2
          · rw [if_neg hc]
            rfl
        | some tt =>
          obtain ⟨hws, htt⟩ := parseTimeTail_append_inv ht
          subst htt
          dsimp only
          have hall : rX.all isRustWhitespace = true := List.all_eq_true.mpr hws
          by_cases hv : validDate y mo dy
          · rw [if_pos hv, if_pos ⟨hall, hv⟩]
            rfl
          · rw [if_neg hv, if_neg (fun hc => hv hc.2)]
            rfl
    · subst hR
      rw [(by decide : parseTimeTail ((":59:59.004011").data) = none)]
      cases hq : parseYmd s.data with
      | none => rfl
      | some q =>
        rcases q with ⟨y2, mo2, dy2, r2⟩
        exfalso
        have h2 := parseYmd_append_some hq
        rw [hp] at h2
        injection h2 with h3
        injection h3 with hy h4
        injection h4 with hmo h5
        injection h5 with hdy hr
        have hlen := congrArg List.length hr
        rw [List.length_append] at hlen
        have hlit : (mbDateLiteral.data).length = 16 := by decide
        have h13 : ((":59:59.004011").data).length = 13 := by decide
        omega

/-- A digit character below ten is a decimal digit. -/
theorem digitChar_isDigit {k : ℕ} (h : k < 10) : (Nat.digitChar k).isDigit = true := by
  interval_cases k <;> decide

/-- The code point of a digit character below ten. -/
theorem digitChar_toNat {k : ℕ} (h : k < 10) : (Nat.digitChar k).toNat = 48 + k := by
  interval_cases k <;> decide

/-- A four-bounded digit scan over four rendered digits consumes exactly
them. -/
theorem takeDigitsUpTo4 (k1 k2 k3 k4 : ℕ) (rest : List Char)
    (h1 : k1 < 10) (h2 : k2 < 10) (h3 : k3 < 10) (h4 : k4 < 10) :
    takeDigitsUpTo 4 (Nat.digitChar k1 :: Nat.digitChar k2 :: Nat.digitChar k3 ::
      Nat.digitChar k4 :: rest) 0 0 =
      (((k1 * 10 + k2) * 10 + k3) * 10 + k4, 4, rest) := by
  simp only [takeDigitsUpTo, digitChar_isDigit h1, digitChar_isDigit h2,
    digitChar_isDigit h3, digitChar_isDigit h4, digitChar_toNat h1, digitChar_toNat h2,
    digitChar_toNat h3, digitChar_toNat h4, if_true, Prod.mk.injEq]
  exact ⟨by omega, trivial⟩

/-- A two-bounded digit scan over two rendered digits consumes exactly
them. -/
theorem takeDigitsUpTo2 (k1 k2 : ℕ) (rest : List Char) (h1 : k1 < 10) (h2 : k2 < 10) :
    takeDigitsUpTo 2 (Nat.digitChar k1 :: Nat.digitChar k2 :: rest) 0 0 =
      (k1 * 10 + k2, 2, rest) := by
  simp only [takeDigitsUpTo, digitChar_isDigit h1, digitChar_isDigit h2,
    digitChar_toNat h1, digitChar_toNat h2, if_true, Prod.mk.injEq]
  exact ⟨by omega, trivial⟩

/-- A digit character below ten is not whitespace. -/
theorem digitChar_not_ws {k : ℕ} (h : k < 10) :
    isRustWhitespace (Nat.digitChar k) = false := by
  interval_cases k <;> decide

/-- A digit character below ten is not a minus sign. -/
theorem digitChar_ne_dash {k : ℕ} (h : k < 10) : Nat.digitChar k ≠ '-' := by
  interval_cases k <;> decide

/-- A digit character below ten is not a plus sign. -/
theorem digitChar_ne_plus {k : ℕ} (h : k < 10) : Nat.digitChar k ≠ '+' := by
  interval_cases k <;> decide

/-- Every month length is at most 31. -/
theorem daysInMonth_le31 (y : ℤ) (m : ℕ) : daysInMonth y m ≤ 31 := by
  unfold daysInMonth
  split_ifs <;> norm_num

/-- A zero-padded `YYYY-MM-DD` rendering of a valid date parses back to
exactly that date with nothing left over. -/
theorem parseDateOnly_padded (y mo dy : ℕ) (hy : y ≤ 9999) (hmo : mo ≤ 99) (hdy : dy ≤ 99)
    (hv : validDate (y : ℤ) mo dy = true) :
    parseDateOnly ((pad4 y ++ "-" ++ pad2 mo ++ "-" ++ pad2 dy).data) =
      some ((y : ℤ), mo, dy) := by
  have hdata : (pad4 y ++ "-" ++ pad2 mo ++ "-" ++ pad2 dy).data =
      Nat.digitChar (y / 1000 % 10) :: Nat.digitChar (y / 100 % 10) ::
      Nat.digitChar (y / 10 % 10) :: Nat.digitChar (y % 10) :: '-' ::
      Nat.digitChar (mo / 10 % 10) :: Nat.digitChar (mo % 10) :: '-' ::
      Nat.digitChar (dy / 10 % 10) :: Nat.digitChar (dy % 10) :: [] := rfl
  unfold parseDateOnly parseYmd scanYear scanNum
  rw [hdata]
  rw [trimLeft_cons_of_not_ws _ (digitChar_not_ws (Nat.mod_lt _ (by norm_num)))]
  dsimp only
  rw [if_neg (digitChar_ne_dash (Nat.mod_lt _ (by norm_num))),
    if_neg (digitChar_ne_plus (Nat.mod_lt _ (by norm_num)))]
  rw [takeDigitsUpTo4 _ _ _ _ _ (Nat.mod_lt _ (by norm_num)) (Nat.mod_lt _ (by norm_num))
    (Nat.mod_lt _ (by norm_num)) (Nat.mod_lt _ (by norm_num))]
  dsimp only
  rw [if_neg (by norm_num)]
  simp only [expectChar, if_pos rfl, if_true]
  rw [trimLeft_cons_of_not_ws _ (digitChar_not_ws (Nat.mod_lt _ (by norm_num)))]
  rw [takeDigitsUpTo2 _ _ _ (Nat.mod_lt _ (by norm_num)) (Nat.mod_lt _ (by norm_num))]
  dsimp only
  rw [if_neg (by norm_num)]
  simp only [expectChar, if_pos rfl, if_true]
  rw [trimLeft_cons_of_not_ws _ (digitChar_not_ws (Nat.mod_lt _ (by norm_num)))]
  rw [takeDigitsUpTo2 _ _ _ (Nat.mod_lt _ (by norm_num)) (Nat.mod_lt _ (by norm_num))]
  dsimp only
  rw [if_neg (by norm_num)]
  have hy4 : ((y / 1000 % 10 * 10 + y / 100 % 10) * 10 + y / 10 % 10) * 10 + y % 10 = y := by
    omega
  have hm2 : mo / 10 % 10 * 10 + mo % 10 = mo := by omega
  have hd2 : dy / 10 % 10 * 10 + dy % 10 = dy := by omega
  rw [hy4, hm2, hd2]
  simp [hv]

/-- C8 (amended): the day-summary date field is decoded by appending the
fixed literal `" 23:59:59.004011"` and parsing with chrono's
`%Y-%m-%d %H:%M:%S%.6f`: decoding succeeds exactly on lenient date-only
inputs — an optionally whitespace-preceded, optionally signed year, month
and day separated by exact `-` literals, followed by whitespace only —
always yielding 23:59:59 and microsecond field 004011 on the parsed
calendar day (the characterization), and every valid zero-padded
`YYYY-MM-DD` input decodes to that day with the literal time. -/
theorem mb_date_literal_time (s : String) (y mo dy : ℕ) (hy : y ≤ 9999)
    (hv : validDate (y : ℤ) mo dy = true) :
    mbDateDeserialize s =
      (parseDateOnly s.data).map
        (fun t => (⟨t.1, t.2.1, t.2.2, 23, 59, 59, 4011⟩ : MbTimestamp)) ∧
    mbDateDeserialize (pad4 y ++ "-" ++ pad2 mo ++ "-" ++ pad2 dy) =
      some ⟨(y : ℤ), mo, dy, 23, 59, 59, 4011⟩ := by
  refine ⟨mbDate_characterize s, ?_⟩
  have hparts : 1 ≤ mo ∧ mo ≤ 12 ∧ 1 ≤ dy ∧ dy ≤ daysInMonth (y : ℤ) mo := by
    have hvv := hv
    unfold validDate at hvv
    simp only [Bool.and_eq_true, decide_eq_true_eq] at hvv
    exact ⟨hvv.1.1.1.2, hvv.1.1.2, hvv.1.2, hvv.2⟩
  have hmo : mo ≤ 99 := by omega
  have hdy : dy ≤ 99 := by
    have := daysInMonth_le31 (y : ℤ) mo
    omega
  rw [mbDate_characterize, parseDateOnly_padded y mo dy hy hmo hdy hv]
  rfl

/-- Witness for C8 at the date 2021-03-04. -/
theorem mb_date_literal_time_witness :
    validDate (2021 : ℤ) 3 4 = true ∧
    mbDateDeserialize "2021-03-04" = some ⟨2021, 3, 4, 23, 59, 59, 4011⟩ := by
  refine ⟨by decide, ?_⟩
  have h := (mb_date_literal_time "2021-03-04" 2021 3 4 (by norm_num) (by decide)).2
  have hs : (pad4 2021 ++ "-" ++ pad2 3 ++ "-" ++ pad2 4) = "2021-03-04" := by decide
  rw [hs] at h
  exact h

/-- C8 counterexample to the literal claim: chrono trims whitespace before
every numeric item, accepts an explicitly signed year, and matches any
whitespace run for the format's space, so these inputs — none of them of
the date-only `YYYY-MM-DD` shape — decode successfully to the parsed
calendar day at 23:59:59.004011 instead of failing. -/
theorem mb_date_non_dateonly_decodes :
    mbDateDeserialize " 2021-03-04" = some ⟨2021, 3, 4, 23, 59, 59, 4011⟩ ∧
    mbDateDeserialize "+2021-03-04" = some ⟨2021, 3, 4, 23, 59, 59, 4011⟩ ∧
    mbDateDeserialize "2021- 3- 4" = some ⟨2021, 3, 4, 23, 59, 59, 4011⟩ ∧
    mbDateDeserialize "2021-03-04 " = some ⟨2021, 3, 4, 23, 59, 59, 4011⟩ := by
  decide

/-- Every character's scalar value lies below `0x110000`. -/
theorem char_toNat_lt (c : Char) : c.toNat < 0x110000 := by
  have he : c.toNat = c.val.toNat := rfl
  rcases c.valid with h | ⟨h1, h2⟩ <;> omega

/-- An encoded scalar is never the empty byte list. -/
theorem utf8EncodeChar_ne_nil (n : Nat) : utf8EncodeChar n ≠ [] := by
  unfold utf8EncodeChar
  split_ifs <;> simp

/-- The lax UTF-8 decoder inverts the encoder on any valid scalar, leaving
the remaining bytes untouched: UTF-8 is a prefix code. -/
theorem utf8DecodeOne_encode (n : Nat) (hn : n < 0x110000) (xs : List Nat) :
    utf8DecodeOne (utf8EncodeChar n ++ xs) = some (n, xs) := by
  unfold utf8EncodeChar
  split_ifs with h1 h2 h3
  · simp only [List.cons_append, List.nil_append, utf8DecodeOne, if_pos h1]
  · simp only [List.cons_append, List.nil_append, utf8DecodeOne]
    rw [if_neg (by omega), if_pos (by omega)]
    simp only [Option.some.injEq, Prod.mk.injEq]
    exact ⟨by omega, trivial⟩
  · simp only [List.cons_append, List.nil_append, utf8DecodeOne]
    rw [if_neg (by omega), if_neg (by omega), if_pos (by omega)]
    simp only [Option.some.injEq, Prod.mk.injEq]
    exact ⟨by omega, trivial⟩
  · simp only [List.cons_append, List.nil_append, utf8DecodeOne]
    rw [if_neg (by omega), if_neg (by omega), if_neg (by omega)]
    simp only [Option.some.injEq, Prod.mk.injEq]
    exact ⟨by omega, trivial⟩

/-- UTF-8 encoding of strings is injective. -/
theorem utf8Bytes_inj (s t : String) (h : utf8Bytes s = utf8Bytes t) : s = t := by
  apply String.ext
  have key : ∀ l1 l2 : List Char,
      l1.foldr (fun c r => utf8EncodeChar c.toNat ++ r) [] =
        l2.foldr (fun c r => utf8EncodeChar c.toNat ++ r) [] → l1 = l2 := by
    intro l1
    induction l1 with
    | nil =>
      intro l2 h2
      cases l2 with
      | nil => rfl
      | cons d t2 =>
        exfalso
        simp only [List.foldr_nil, List.foldr_cons] at h2
        exact utf8EncodeChar_ne_nil d.toNat (List.append_eq_nil.mp h2.symm).1
    | cons c t1 ih =>
      intro l2 h2
      cases l2 with
      | nil =>
        exfalso
        simp only [List.foldr_nil, List.foldr_cons] at h2
        exact utf8EncodeChar_ne_nil c.toNat (List.append_eq_nil.mp h2).1
      | cons d t2 =>
        simp only [List.foldr_cons] at h2
        have hc := utf8DecodeOne_encode c.toNat (char_toNat_lt c)
          (t1.foldr (fun c r => utf8EncodeChar c.toNat ++ r) [])
        have hd := utf8DecodeOne_encode d.toNat (char_toNat_lt d)
          (t2.foldr (fun c r => utf8EncodeChar c.toNat ++ r) [])
        rw [h2] at hc
        rw [hd] at hc
        simp only [Option.some.injEq, Prod.mk.injEq] at hc
        have hcd : c = d := Char.eq_of_val_eq (UInt32.toNat.inj hc.1.symm)
        rw [hcd, ih t2 hc.2.symm]
  exact key s.data t.data h

/-- The scalar value of `Char.ofNat` below the surrogate range. -/
theorem charOfNat_toNat {b : ℕ} (h : b < 0xD800) : (Char.ofNat b).toNat = b := by
  unfold Char.ofNat
  rw [dif_pos (Or.inl h)]
  rfl

/-- Uppercase hex digits decode back to their value. -/
theorem hexUpperVal_hexDigitUpper {k : ℕ} (h : k < 16) :
    hexUpperVal (hexDigitUpper k) = k := by
  interval_cases k <;> decide

/-- Uppercase hex digits are never `+`, `%`, `&` or `=`. -/
theorem hexDigitUpper_ne {k : ℕ} (h : k < 16) :
    hexDigitUpper k ≠ '+' ∧ hexDigitUpper k ≠ '%' ∧ hexDigitUpper k ≠ '&' ∧
      hexDigitUpper k ≠ '=' := by
  interval_cases k <;> decide

/-- An unreserved byte is none of space, `+`, `%`, `&`, `=`. -/
theorem isFormUnreserved_ne {b : ℕ} (h : isFormUnreserved b = true) :
    b ≠ 32 ∧ b ≠ 43 ∧ b ≠ 37 ∧ b ≠ 38 ∧ b ≠ 61 := by
  unfold isFormUnreserved at h
  simp only [Bool.or_eq_true, Bool.and_eq_true, decide_eq_true_eq, beq_iff_eq] at h
  omega

/-- A byte's form-url encoding is never empty. -/
theorem formUrlEncodeByte_ne_nil (b : ℕ) : (formUrlEncodeByte b).data ≠ [] := by
  unfold formUrlEncodeByte
  split_ifs <;> simp

/-- The lax form-url decoder inverts the byte encoder, leaving the rest of
the character stream untouched: the encoding is a prefix code. -/
theorem formUrlDecodeOne_encode (b : ℕ) (hb : b < 256) (rest : List Char) :
    formUrlDecodeOne ((formUrlEncodeByte b).data ++ rest) = some (b, rest) := by
  unfold formUrlEncodeByte
  split_ifs with h1 h2
  · have hb32 : b = 32 := by simpa using h1
    subst hb32
    show formUrlDecodeOne ('+' :: rest) = some (32, rest)
    unfold formUrlDecodeOne
    dsimp only
    rw [if_pos rfl]
  · have hne := isFormUnreserved_ne h2
    have htn : (Char.ofNat b).toNat = b := charOfNat_toNat (by omega)
    show formUrlDecodeOne (Char.ofNat b :: rest) = some (b, rest)
    have hplus : ¬(Char.ofNat b = '+') := by
      intro hc
      rw [hc] at htn
      have h43 : ('+' : Char).toNat = 43 := rfl
      omega
    have hpct : ¬(Char.ofNat b = '%') := by
      intro hc
      rw [hc] at htn
      have h37 : ('%' : Char).toNat = 37 := rfl
      omega
    unfold formUrlDecodeOne
    dsimp only
    rw [if_neg hplus, if_neg hpct, htn]
  · have hq : b / 16 < 16 := by omega
    have hr : b % 16 < 16 := by omega
    show formUrlDecodeOne ('%' :: hexDigitUpper (b / 16) :: hexDigitUpper (b % 16) :: rest) =
      some (b, rest)
    unfold formUrlDecodeOne
    dsimp only
    rw [if_neg (by decide), if_pos rfl]
    rw [hexUpperVal_hexDigitUpper hq, hexUpperVal_hexDigitUpper hr]
    simp only [Option.some.injEq, Prod.mk.injEq]
    exact ⟨by omega, trivial⟩

/-- The byte-stream form-url encoding is injective on bounded byte lists. -/
theorem formUrlEncodeBytesData_inj : ∀ bs1 bs2 : List Nat, (∀ x ∈ bs1, x < 256) →
    (∀ x ∈ bs2, x < 256) → formUrlEncodeBytesData bs1 = formUrlEncodeBytesData bs2 →
    bs1 = bs2 := by
  intro bs1
  induction bs1 with
  | nil =>
    intro bs2 _ _ h
    cases bs2 with
    | nil => rfl
    | cons b t =>
      exfalso
      simp only [formUrlEncodeBytesData, List.foldr_nil, List.foldr_cons] at h
      exact formUrlEncodeByte_ne_nil b (List.append_eq_nil.mp h.symm).1
  | cons b t ih =>
    intro bs2 hb1 hb2 h
    cases bs2 with
    | nil =>
      exfalso
      simp only [formUrlEncodeBytesData, List.foldr_nil, List.foldr_cons] at h
      exact formUrlEncodeByte_ne_nil b (List.append_eq_nil.mp h).1
    | cons b2 t2 =>
      simp only [formUrlEncodeBytesData, List.foldr_cons] at h
      have hc := formUrlDecodeOne_encode b (hb1 b (by simp))
        (t.foldr (fun x r => (formUrlEncodeByte x).data ++ r) [])
      have hd := formUrlDecodeOne_encode b2 (hb2 b2 (by simp))
        (t2.foldr (fun x r => (formUrlEncodeByte x).data ++ r) [])
      rw [h] at hc
      rw [hd] at hc
      simp only [Option.some.injEq, Prod.mk.injEq] at hc
      rw [hc.1.symm, ih t2 (fun x hx => hb1 x (by simp [hx]))
        (fun x hx => hb2 x (by simp [hx])) hc.2.symm]

/-- Every UTF-8 byte is below 256. -/
theorem utf8EncodeChar_lt {n : ℕ} (hn : n < 0x110000) :
    ∀ x ∈ utf8EncodeChar n, x < 256 := by
  unfold utf8EncodeChar
  split_ifs <;> intro x hx <;> simp only [List.mem_cons, List.not_mem_nil, or_false] at hx <;>
    omega

/-- Every byte of a string's UTF-8 encoding is below 256. -/
theorem utf8Bytes_lt (s : String) : ∀ x ∈ utf8Bytes s, x < 256 := by
  unfold utf8Bytes
  induction s.data with
  | nil => simp
  | cons c t ih =>
    intro x hx
    simp only [List.foldr_cons, List.mem_append] at hx
    rcases hx with hx | hx
    · exact utf8EncodeChar_lt (char_toNat_lt c) x hx
    · exact ih x hx

/-- The character data of a fold of string concatenations. -/
theorem data_foldl_append (l : List String) : ∀ s : String,
    (l.foldl (· ++ ·) s).data = s.data ++ (l.map String.data).flatten := by
  induction l with
  | nil => intro s; simp
  | cons a t ih =>
    intro s
    simp only [List.foldl_cons, List.map_cons, List.flatten_cons]
    rw [ih (s ++ a), String.data_append, List.append_assoc]

/-- The character data of `formUrlEncodeStr` is the byte-stream encoding of
the string's UTF-8 bytes. -/
theorem formUrlEncodeStr_data (s : String) :
    (formUrlEncodeStr s).data = formUrlEncodeBytesData (utf8Bytes s) := by
  unfold formUrlEncodeStr String.join
  rw [data_foldl_append]
  have h0 : ("" : String).data = [] := rfl
  rw [h0, List.nil_append]
  induction utf8Bytes s with
  | nil => rfl
  | cons b t ih =>
    simp only [List.map_cons, List.flatten_cons]
    rw [ih]
    rfl

/-- Form-url-encoding of strings is injective. -/
theorem formUrlEncodeStr_inj (s t : String)
    (h : formUrlEncodeStr s = formUrlEncodeStr t) : s = t := by
  have hd := congrArg String.data h
  rw [formUrlEncodeStr_data, formUrlEncodeStr_data] at hd
  exact utf8Bytes_inj s t
    (formUrlEncodeBytesData_inj (utf8Bytes s) (utf8Bytes t) (utf8Bytes_lt s) (utf8Bytes_lt t) hd)

/-- No character of a byte's form-url encoding is `&` or `=`. -/
theorem formUrlEncodeByte_no_sep {b : ℕ} (hb : b < 256) :
    ∀ ch ∈ (formUrlEncodeByte b).data, ch ≠ '&' ∧ ch ≠ '=' := by
  unfold formUrlEncodeByte
  split_ifs with h1 h2
  · intro ch hch
    have hd : ("+" : String).data = ['+'] := rfl
    rw [hd] at hch
    simp only [List.mem_singleton] at hch
    subst hch
    exact ⟨by decide, by decide⟩
  · intro ch hch
    have hne := isFormUnreserved_ne h2
    have htn : (Char.ofNat b).toNat = b := charOfNat_toNat (by omega)
    have hd : (String.mk [Char.ofNat b]).data = [Char.ofNat b] := rfl
    rw [hd] at hch
    simp only [List.mem_singleton] at hch
    subst hch
    constructor
    · intro hc
      rw [hc] at htn
      have h38 : ('&' : Char).toNat = 38 := rfl
      omega
    · intro hc
      rw [hc] at htn
      have h61 : ('=' : Char).toNat = 61 := rfl
      omega
  · intro ch hch
    have hq : b / 16 < 16 := by omega
    have hr : b % 16 < 16 := by omega
    have hd : (String.mk ['%', hexDigitUpper (b / 16), hexDigitUpper (b % 16)]).data =
        ['%', hexDigitUpper (b / 16), hexDigitUpper (b % 16)] := rfl
    rw [hd] at hch
    simp only [List.mem_cons, List.not_mem_nil, or_false] at hch
    rcases hch with rfl | rfl | rfl
    · exact ⟨by decide, by decide⟩
    · exact ⟨(hexDigitUpper_ne hq).2.2.1, (hexDigitUpper_ne hq).2.2.2⟩
    · exact ⟨(hexDigitUpper_ne hr).2.2.1, (hexDigitUpper_ne hr).2.2.2⟩

/-- No character of an encoded string is `&` or `=`. -/
theorem formUrlEncodeStr_no_sep (s : String) :
    ∀ ch ∈ (formUrlEncodeStr s).data, ch ≠ '&' ∧ ch ≠ '=' := by
  rw [formUrlEncodeStr_data]
  have hb := utf8Bytes_lt s
  revert hb
  generalize utf8Bytes s = bs
  unfold formUrlEncodeBytesData
  induction bs with
  | nil => simp
  | cons b t ih =>
    intro hb ch hch
    simp only [List.foldr_cons, List.mem_append] at hch
    rcases hch with hch | hch
    · exact formUrlEncodeByte_no_sep (hb b (by simp)) ch hch
    · exact ih (fun x hx => hb x (by simp [hx])) ch hch

/-- Splitting at the first occurrence of a separator character is
unambiguous when neither prefix contains it. -/
theorem append_sep_inj {c : Char} : ∀ (a1 a2 b1 b2 : List Char),
    (∀ x ∈ a1, x ≠ c) → (∀ x ∈ a2, x ≠ c) →
    a1 ++ c :: b1 = a2 ++ c :: b2 → a1 = a2 ∧ b1 = b2 := by
  intro a1
  induction a1 with
  | nil =>
    intro a2 b1 b2 _ h2 h
    cases a2 with
    | nil => simpa using h
    | cons x t =>
      exfalso
      simp only [List.nil_append, List.cons_append, List.cons.injEq] at h
      exact h2 x (by simp) h.1.symm
  | cons x t ih =>
    intro a2 b1 b2 h1 h2 h
    cases a2 with
    | nil =>
      exfalso
      simp only [List.nil_append, List.cons_append, List.cons.injEq] at h
      exact h1 x (by simp) h.1
    | cons y t2 =>
      simp only [List.cons_append, List.cons.injEq] at h
      obtain ⟨ha, hb⟩ := ih t2 b1 b2 (fun z hz => h1 z (by simp [hz]))
        (fun z hz => h2 z (by simp [hz])) h.2
      exact ⟨by rw [h.1, ha], hb⟩

/-- A list free of a character cannot equal a list containing it. -/
theorem no_sep_append_absurd {c : Char} {a1 a2 b : List Char}
    (h1 : ∀ x ∈ a1, x ≠ c) (h : a1 = a2 ++ c :: b) : False := by
  have hc : c ∈ a1 := by rw [h]; simp
  exact h1 c hc rfl

/-- The character data of a serialized nonempty query: encoded key, `=`,
encoded value, then `&` and the serialized tail when one exists. -/
theorem serde_data_cons (p : String × String) (q : Query) :
    (serdeUrlencodedToString (p :: q)).data =
      (formUrlEncodeStr p.1).data ++ '=' ::
        ((formUrlEncodeStr p.2).data ++
          (match q with
           | [] => []
           | _ :: _ => '&' :: (serdeUrlencodedToString q).data)) := by
  cases q with
  | nil =>
    simp [serdeUrlencodedToString, String.data_append,
      (show ("=" : String).data = ['='] from rfl)]
  | cons p2 t =>
    simp [serdeUrlencodedToString, String.data_append,
      (show ("=" : String).data = ['='] from rfl),
      (show ("&" : String).data = ['&'] from rfl)]

/-- The form serializer is injective: distinct ordered parameter lists have
distinct serializations. -/
theorem serdeUrlencodedToString_inj : ∀ q1 q2 : Query,
    serdeUrlencodedToString q1 = serdeUrlencodedToString q2 → q1 = q2 := by
  intro q1
  induction q1 with
  | nil =>
    intro q2 h
    cases q2 with
    | nil => rfl
    | cons p t =>
      exfalso
      have hd := congrArg String.data h
      rw [serde_data_cons] at hd
      simp [serdeUrlencodedToString] at hd
  | cons p t ih =>
    intro q2 h
    cases q2 with
    | nil =>
      exfalso
      have hd := congrArg String.data h
      rw [serde_data_cons] at hd
      simp [serdeUrlencodedToString] at hd
    | cons p2 t2 =>
      obtain ⟨k1, v1⟩ := p
      obtain ⟨k2, v2⟩ := p2
      have hd := congrArg String.data h
      rw [serde_data_cons, serde_data_cons] at hd
      have hk1 := fun x hx => (formUrlEncodeStr_no_sep k1 x hx).2
      have hk2 := fun x hx => (formUrlEncodeStr_no_sep k2 x hx).2
      obtain ⟨hkeq, hrest⟩ := append_sep_inj _ _ _ _ hk1 hk2 hd
      have hkstr : k1 = k2 := formUrlEncodeStr_inj _ _ (String.ext hkeq)
      have hv1 := fun x hx => (formUrlEncodeStr_no_sep v1 x hx).1
      have hv2 := fun x hx => (formUrlEncodeStr_no_sep v2 x hx).1
      cases t with
      | nil =>
        cases t2 with
        | nil =>
          dsimp only at hrest
          simp only [List.append_nil] at hrest
          have hvstr : v1 = v2 := formUrlEncodeStr_inj _ _ (String.ext hrest)
          rw [hkstr, hvstr]
        | cons p3 t3 =>
          exfalso
          dsimp only at hrest
          simp only [List.append_nil] at hrest
          exact no_sep_append_absurd hv1 hrest
      | cons p3 t3 =>
        cases t2 with
        | nil =>
          exfalso
          dsimp only at hrest
          simp only [List.append_nil] at hrest
          exact no_sep_append_absurd hv2 hrest.symm
        | cons p4 t4 =>
          dsimp only at hrest
          obtain ⟨hveq, htail⟩ := append_sep_inj _ _ _ _ hv1 hv2 hrest
          have hvstr : v1 = v2 := formUrlEncodeStr_inj _ _ (String.ext hveq)
          have hteq : (p3 :: t3 : Query) = p4 :: t4 := ih _ (String.ext htail)
          rw [hkstr, hvstr, hteq]

/-- The signing input determines the parameter list: distinct ordered
parameter lists produce distinct signing inputs. -/
theorem signingInput_inj (q1 q2 : Query) (h : signingInput q1 = signingInput q2) :
    q1 = q2 := by
  unfold signingInput API_VERSION_PATH at h
  have hd := congrArg String.data h
  simp only [String.data_append] at hd
  rw [List.append_assoc] at hd
  refine serdeUrlencodedToString_inj q1 q2 (String.ext ?_)
  exact List.append_cancel_left (List.append_cancel_left hd)

/-- One SHA-512 round preserves the state width. -/
theorem sha512Round_length (st : List Nat) (kw : Nat × Nat) :
    (sha512Round st kw).length = st.length := by
  unfold sha512Round
  split <;> rfl

/-- The eighty rounds preserve the state width. -/
theorem foldl_sha512Round_length (l : List (Nat × Nat)) : ∀ h : List Nat,
    (l.foldl sha512Round h).length = h.length := by
  induction l with
  | nil => intro h; rfl
  | cons kw t ih =>
    intro h
    simp only [List.foldl_cons]
    rw [ih (sha512Round h kw), sha512Round_length]

/-- Compression preserves the hash width. -/
theorem sha512Compress_length (h block : List Nat) :
    (sha512Compress h block).length = h.length := by
  unfold sha512Compress
  rw [List.length_map, List.length_zip, foldl_sha512Round_length]
  exact Nat.min_self _

/-- Block iteration preserves the hash width. -/
theorem sha512Blocks_length : ∀ (fuel : Nat) (h msg : List Nat),
    (sha512Blocks fuel h msg).length = h.length := by
  intro fuel
  induction fuel with
  | zero => intro h msg; rfl
  | succ n ih =>
    intro h msg
    unfold sha512Blocks
    split
    · rfl
    · rw [ih, sha512Compress_length]

/-- The serialized digest of the eight hash words. -/
theorem foldr_beBytes_length (hs : List Nat) :
    (hs.foldr (fun w acc => beBytes 8 w ++ acc) []).length = 8 * hs.length := by
  induction hs with
  | nil => rfl
  | cons w t ih =>
    simp only [List.foldr_cons, List.length_append, ih, List.length_cons]
    have : (beBytes 8 w).length = 8 := by simp [beBytes]
    omega

/-- A SHA-512 digest is 64 bytes long. -/
theorem sha512_length (m : List Nat) : (sha512 m).length = 64 := by
  unfold sha512
  rw [foldr_beBytes_length, sha512Blocks_length]
  rfl

/-- Every entry of a word-serialization is a byte. -/
theorem mem_foldr_beBytes {x : Nat} : ∀ hs : List Nat,
    x ∈ hs.foldr (fun w acc => beBytes 8 w ++ acc) [] → x < 256 := by
  intro hs
  induction hs with
  | nil => intro h; simp at h
  | cons w t ih =>
    intro h
    simp only [List.foldr_cons, List.mem_append] at h
    rcases h with h | h
    · simp only [beBytes, List.mem_map, List.mem_range] at h
      obtain ⟨i, _, hi⟩ := h
      omega
    · exact ih h

/-- Every entry of a SHA-512 digest is a byte. -/
theorem sha512_lt (m : List Nat) : ∀ x ∈ sha512 m, x < 256 :=
  fun x hx => mem_foldr_beBytes _ hx

/-- An HMAC-SHA-512 digest is 64 bytes long. -/
theorem hmacSha512_length (key msg : List Nat) : (hmacSha512 key msg).length = 64 :=
  sha512_length _

/-- Every entry of an HMAC-SHA-512 digest is a byte. -/
theorem hmacSha512_lt (key msg : List Nat) : ∀ x ∈ hmacSha512 key msg, x < 256 :=
  sha512_lt _

/-- Folding into base 256 from an accumulator splits off the accumulator. -/
theorem beCombine_aux : ∀ (xs : List Nat) (a : Nat),
    xs.foldl (fun u b => u * 256 + b) a =
      a * 256 ^ xs.length + xs.foldl (fun u b => u * 256 + b) 0 := by
  intro xs
  induction xs with
  | nil => intro a; simp
  | cons y ys ih =>
    intro a
    simp only [List.foldl_cons, List.length_cons]
    rw [ih (a * 256 + y), ih (0 * 256 + y)]
    ring

/-- The base-256 value of a byte list is bounded by its width. -/
theorem beCombine_lt : ∀ xs : List Nat, (∀ x ∈ xs, x < 256) →
    beCombine xs < 256 ^ xs.length := by
  intro xs
  induction xs with
  | nil => intro; simp [beCombine]
  | cons y ys ih =>
    intro h
    have hy : y < 256 := h y (by simp)
    have hys : beCombine ys < 256 ^ ys.length := ih (fun x hx => h x (by simp [hx]))
    unfold beCombine at hys ⊢
    simp only [List.foldl_cons, List.length_cons]
    rw [beCombine_aux ys (0 * 256 + y)]
    have h1 : (0 * 256 + y) * 256 ^ ys.length ≤ 255 * 256 ^ ys.length :=
      Nat.mul_le_mul_right _ (by omega)
    have h3 : 255 * 256 ^ ys.length + 256 ^ ys.length = 256 ^ (ys.length + 1) := by ring
    omega

/-- Base decomposition of equal numbers with bounded remainders is unique. -/
theorem mul_pow_add_inj {P a b r s : ℕ} (hr : r < P) (hs : s < P)
    (h : a * P + r = b * P + s) : a = b ∧ r = s := by
  have hab : a = b := by
    by_contra hne
    rcases Nat.lt_or_ge a b with hlt | hge
    · have hb1 : a + 1 ≤ b := hlt
      have hstep : (a + 1) * P ≤ b * P := Nat.mul_le_mul_right _ hb1
      have : a * P + P = (a + 1) * P := by ring
      omega
    · have hlt2 : b < a := lt_of_le_of_ne hge (fun hc => hne hc.symm)
      have hb1 : b + 1 ≤ a := hlt2
      have hstep : (b + 1) * P ≤ a * P := Nat.mul_le_mul_right _ hb1
      have : b * P + P = (b + 1) * P := by ring
      omega
  subst hab
  exact ⟨rfl, by omega⟩

/-- The base-256 value determines the bytes, at a fixed width. -/
theorem beCombine_inj : ∀ xs ys : List Nat, xs.length = ys.length →
    (∀ x ∈ xs, x < 256) → (∀ x ∈ ys, x < 256) → beCombine xs = beCombine ys →
    xs = ys := by
  intro xs
  induction xs with
  | nil =>
    intro ys hlen _ _ _
    cases ys with
    | nil => rfl
    | cons y t => exact absurd hlen (by simp)
  | cons x xt ih =>
    intro ys hlen hbx hby heq
    cases ys with
    | nil => exact absurd hlen (by simp)
    | cons y yt =>
      have hlen2 : xt.length = yt.length := by simpa using hlen
      unfold beCombine at heq
      simp only [List.foldl_cons] at heq
      rw [beCombine_aux xt (0 * 256 + x), beCombine_aux yt (0 * 256 + y), hlen2] at heq
      have hx : x < 256 := hbx x (by simp)
      have hy : y < 256 := hby y (by simp)
      have hbxt : beCombine xt < 256 ^ yt.length := by
        rw [← hlen2]
        exact beCombine_lt xt (fun z hz => hbx z (by simp [hz]))
      have hbyt : beCombine yt < 256 ^ yt.length :=
        beCombine_lt yt (fun z hz => hby z (by simp [hz]))
      obtain ⟨h1, h2⟩ := mul_pow_add_inj hbxt hbyt heq
      have hxy : x = y := by omega
      rw [hxy, ih yt hlen2 (fun z hz => hbx z (by simp [hz]))
        (fun z hz => hby z (by simp [hz])) h2]

/-- C6 counterexample to the literal claim: the signature has only `2 ^ 512`
possible values while parameter values range over infinitely many strings,
so two parameter lists differing in one value must share a signature; by
the pigeonhole principle such a collision exists (nonconstructively),
refuting "changing any parameter's value produces a different signature"
as a universal statement. -/
theorem sign_value_collision_exists :
    ∃ v1 v2 : String, v1 ≠ v2 ∧
      signRaw "secret" [("a", v1)] = signRaw "secret" [("a", v2)] := by
  have hbound : ∀ n : ℕ,
      beCombine (hmacSha512 (utf8Bytes "secret")
        (utf8Bytes (signingInput [("a", String.mk (List.replicate n 'a'))]))) < 256 ^ 64 := by
    intro n
    have h := beCombine_lt _ (hmacSha512_lt (utf8Bytes "secret")
      (utf8Bytes (signingInput [("a", String.mk (List.replicate n 'a'))])))
    rwa [hmacSha512_length] at h
  obtain ⟨n, m, hnm, hf⟩ := Finite.exists_ne_map_eq_of_infinite
    (fun n : ℕ => (⟨beCombine (hmacSha512 (utf8Bytes "secret")
      (utf8Bytes (signingInput [("a", String.mk (List.replicate n 'a'))]))),
      hbound n⟩ : Fin (256 ^ 64)))
  refine ⟨String.mk (List.replicate n 'a'), String.mk (List.replicate m 'a'), ?_, ?_⟩
  · intro hc
    apply hnm
    have hlen := congrArg (fun s : String => s.data.length) hc
    simpa using hlen
  · have hval := congrArg Fin.val hf
    simp only at hval
    have hdig := beCombine_inj _ _
      (by rw [hmacSha512_length, hmacSha512_length])
      (hmacSha512_lt _ _) (hmacSha512_lt _ _) hval
    show hexEncode (hmacSha512 (utf8Bytes "secret")
        (utf8Bytes (signingInput [("a", String.mk (List.replicate n 'a'))]))) =
      hexEncode (hmacSha512 (utf8Bytes "secret")
        (utf8Bytes (signingInput [("a", String.mk (List.replicate m 'a'))])))
    rw [hdig]

/-- C6 (amended): the signature is deterministic and depends on no client
field other than the secret; changing any parameter's value or permuting
the ordered parameter list changes the HMAC input message, and changing the
secret changes the HMAC key — but equality of the 512-bit signature itself
cannot be excluded for distinct inputs (see the collision theorem). -/
theorem sign_deterministic_and_input_sensitive (c c2 : Client) (params q1 q2 : Query)
    (s1 s2 : String) (hsec : c.secret = c2.secret) (hq : q1 ≠ q2) (hs : s1 ≠ s2) :
    Client.sign c params = Client.sign c2 params ∧
    signingInput q1 ≠ signingInput q2 ∧
    utf8Bytes s1 ≠ utf8Bytes s2 := by
  refine ⟨by rw [Client.sign, Client.sign, hsec], ?_, ?_⟩
  · intro hc
    exact hq (signingInput_inj q1 q2 hc)
  · intro hc
    exact hs (utf8Bytes_inj s1 s2 hc)

/-- Witness for the amended C6 at concrete clients, parameter lists and
secrets. -/
theorem sign_deterministic_and_input_sensitive_witness :
    Client.sign (Client.init "pub" "priv" "id" "k") [("x", "1")] =
      Client.sign (Client.init_private "priv" "id" "k") [("x", "1")] ∧
    signingInput [("x", "1")] ≠ signingInput [("x", "2")] ∧
    utf8Bytes "k" ≠ utf8Bytes "k2" :=
  sign_deterministic_and_input_sensitive _ _ _ _ _ _ _ rfl (by decide) (by decide)

/-- C1: for every secret string and every ordered list of (name, value)
parameter pairs, the signature produced by `Client::sign` equals the
lowercase hex encoding of HMAC-SHA-512 keyed by the secret (any key length
accepted — `hmacSha512` is total in the key) over the concatenation of the
literal `/tapi/v3/`, a literal `?`, and the form-URL-encoded serialization
of the pairs in their given insertion order. -/
theorem sign_is_hmac_of_spec_input (c : Client) (secret : String) (params : Query)
    (h : c.secret = some secret) :
    Client.sign c params = some (specSignature secret params) := by
  simp only [Client.sign, h]
  rfl

/-- Witness for C1 at a concrete client and parameter list. -/
theorem sign_is_hmac_of_spec_input_witness :
    (Client.init "pub" "priv" "id" "key").secret = some "key" ∧
    Client.sign (Client.init "pub" "priv" "id" "key") [("coin_pair", "BRLBTC")] =
      some (specSignature "key" [("coin_pair", "BRLBTC")]) :=
  ⟨rfl, sign_is_hmac_of_spec_input _ _ _ rfl⟩

/-- C2: for every private operation and decoded envelope, a success status
with a present payload yields `Ok(payload)`; any other status yields
`Err(Error::ApiError(status))` with the payload ignored; a transport or
decode failure yields the distinct `Err(Error::RequestError(e))`; and each
of the four private operations routes its exchange through exactly this
handling. -/
theorem private_op_response_handling {T : Type} (r : Response T) (d : T)
    (e : ReqwestError) (pu pr id sec coin_pair : String) (nonce : ℤ) (full : Bool)
    (quantity limit_price : ℚ) (tr1 : Transport OrderbookResponse)
    (tr2 tr3 : Transport OrderResponse) (tr4 : Transport AccountInfoResponse) :
    (r.status_code = ApiStatus.Success → r.response_data = some d →
      handleResponse (Except.ok r) = OpResult.ok d) ∧
    (r.status_code ≠ ApiStatus.Success →
      handleResponse (Except.ok r) = OpResult.err (Error.ApiError r.status_code)) ∧
    (handleResponse (T := T) (Except.error e) = OpResult.err (Error.RequestError e)) ∧
    (Client.orderbook (Client.init pu pr id sec) nonce coin_pair full tr1 =
      some (handleResponse (tr1 (orderbookParams nonce coin_pair full)
        (signRaw sec (orderbookParams nonce coin_pair full)) pr id))) ∧
    (Client.place_buy_order (Client.init pu pr id sec) nonce coin_pair quantity limit_price tr2 =
      some (handleResponse (tr2 (placeOrderParams .Buy nonce coin_pair quantity limit_price)
        (signRaw sec (placeOrderParams .Buy nonce coin_pair quantity limit_price)) pr id))) ∧
    (Client.place_sell_order (Client.init pu pr id sec) nonce coin_pair quantity limit_price tr3 =
      some (handleResponse (tr3 (placeOrderParams .Sell nonce coin_pair quantity limit_price)
        (signRaw sec (placeOrderParams .Sell nonce coin_pair quantity limit_price)) pr id))) ∧
    (Client.get_account_info (Client.init pu pr id sec) nonce tr4 =
      some (handleResponse (tr4 (getAccountInfoParams nonce)
        (signRaw sec (getAccountInfoParams nonce)) pr id))) := by
  refine ⟨fun hs hd => ?_, fun hs => ?_, rfl, rfl, rfl, rfl, rfl⟩
  · simp only [handleResponse, Response.is_success, hs, hd, if_true]
  · have : r.is_success = false := by
      unfold Response.is_success
      cases hsc : r.status_code <;> simp_all
    simp only [handleResponse, this, Bool.false_eq_true, if_false]

/-- Witness for C2 at concrete envelopes over a `ℕ` payload. -/
theorem private_op_response_handling_witness :
    handleResponse (Except.ok (⟨some 7, ApiStatus.Success⟩ : Response ℕ)) = OpResult.ok 7 ∧
    handleResponse (Except.ok (⟨some 7, ApiStatus.TradingHalted⟩ : Response ℕ)) =
      OpResult.err (Error.ApiError ApiStatus.TradingHalted) ∧
    handleResponse (T := ℕ) (Except.error ⟨"timeout"⟩) =
      OpResult.err (Error.RequestError ⟨"timeout"⟩) := by
  refine ⟨?_, ?_, ?_⟩
  · exact (private_op_response_handling (⟨some 7, ApiStatus.Success⟩ : Response ℕ) 7
      ⟨"timeout"⟩ "" "" "" "" "" 0 false 0 0 (fun _ _ _ _ => Except.error ⟨""⟩)
      (fun _ _ _ _ => Except.error ⟨""⟩) (fun _ _ _ _ => Except.error ⟨""⟩)
      (fun _ _ _ _ => Except.error ⟨""⟩)).1 rfl rfl
  · exact (private_op_response_handling (⟨some 7, ApiStatus.TradingHalted⟩ : Response ℕ) 7
      ⟨"timeout"⟩ "" "" "" "" "" 0 false 0 0 (fun _ _ _ _ => Except.error ⟨""⟩)
      (fun _ _ _ _ => Except.error ⟨""⟩) (fun _ _ _ _ => Except.error ⟨""⟩)
      (fun _ _ _ _ => Except.error ⟨""⟩)).2.1 (by simp)
  · exact (private_op_response_handling (⟨some 7, ApiStatus.TradingHalted⟩ : Response ℕ) 7
      ⟨"timeout"⟩ "" "" "" "" "" 0 false 0 0 (fun _ _ _ _ => Except.error ⟨""⟩)
      (fun _ _ _ _ => Except.error ⟨""⟩) (fun _ _ _ _ => Except.error ⟨""⟩)
      (fun _ _ _ _ => Except.error ⟨""⟩)).2.2.1

/-- C3: deserializing an envelope whose numeric status code is not one of
the 28 documented codes fails to decode — it is never coerced or defaulted
to any listed variant. -/
theorem undocumented_status_code_fails_decode (n : ℤ) (h : n ∉ documentedCodes) :
    apiStatusOfCode n = none := by
  rw [apiStatusOfCode, List.find?_eq_none]
  intro s _ hcode
  exact h (of_decide_eq_true hcode ▸ apiStatus_code_mem_documented s)

/-- Witness for C3 at the undocumented code 101. -/
theorem undocumented_status_code_fails_decode_witness :
    (101 : ℤ) ∉ documentedCodes ∧ apiStatusOfCode 101 = none :=
  ⟨by decide, undocumented_status_code_fails_decode 101 (by decide)⟩

/-- C5: each private operation builds its parameter list in exactly the
documented fixed order, starting with `tapi_method` then `tapi_nonce`, and
signs exactly that list (no permutation between construction and signing). -/
theorem private_params_fixed_order (nonce : ℤ) (coin_pair : String) (full : Bool)
    (quantity limit_price : ℚ) (pu pr id sec : String) :
    orderbookParams nonce coin_pair full =
      [("tapi_method", "list_orderbook"), ("tapi_nonce", toString nonce),
       ("coin_pair", coin_pair), ("full", boolToString full)] ∧
    placeOrderParams .Buy nonce coin_pair quantity limit_price =
      [("tapi_method", "place_buy_order"), ("tapi_nonce", toString nonce),
       ("coin_pair", coin_pair), ("quantity", fmtFixed quantity 8),
       ("limit_price", fmtFixed limit_price 2)] ∧
    placeOrderParams .Sell nonce coin_pair quantity limit_price =
      [("tapi_method", "place_sell_order"), ("tapi_nonce", toString nonce),
       ("coin_pair", coin_pair), ("quantity", fmtFixed quantity 8),
       ("limit_price", fmtFixed limit_price 2)] ∧
    getAccountInfoParams nonce =
      [("tapi_method", "get_account_info"), ("tapi_nonce", toString nonce)] ∧
    (Client.init pu pr id sec).sign (orderbookParams nonce coin_pair full) =
      some (signRaw sec (orderbookParams nonce coin_pair full)) ∧
    (Client.init pu pr id sec).sign (placeOrderParams .Buy nonce coin_pair quantity limit_price) =
      some (signRaw sec (placeOrderParams .Buy nonce coin_pair quantity limit_price)) ∧
    (Client.init pu pr id sec).sign (getAccountInfoParams nonce) =
      some (signRaw sec (getAccountInfoParams nonce)) :=
  ⟨rfl, rfl, rfl, rfl, rfl, rfl, rfl⟩

/-- C7: every value-as-string numeric field of the decoded domain types
goes through the string-parsing `from_str` deserializer, never the native
JSON number path: a JSON string holding a well-formed decimal decodes to
its exact value, a native JSON number in such a field fails the whole
decode, and a malformed numeric string fails the whole decode (shown on
the `from_str` helper itself, universally, and on the `Balance`, `Ticker`,
`OrderbookOrder` and `Order` decoders). -/
theorem value_as_string_field_decoding (x : ℚ) :
    fromStrField (Json.str "123.45000000") = Except.ok (mkRat 2469 20) ∧
    fromStrField (Json.num x) = Except.error "invalid type: expected a string" ∧
    fromStrField (Json.str "12x.5") = Except.error "invalid float literal" ∧
    decodeBalance (Json.obj [("available", Json.str "123.45000000"),
        ("total", Json.str "0.5")]) =
      Except.ok ⟨mkRat 2469 20, mkRat 1 2⟩ ∧
    decodeBalance (Json.obj [("available", Json.num x), ("total", Json.str "0.5")]) =
      Except.error "invalid type: expected a string" ∧
    decodeBalance (Json.obj [("available", Json.str "123.45x"),
        ("total", Json.str "0.5")]) =
      Except.error "invalid float literal" ∧
    decodeTicker (Json.obj [("high", Json.str "1.5"), ("low", Json.str "2"),
        ("vol", Json.str "0.25"), ("last", Json.str "3e2"),
        ("buy", Json.str "123.45000000"), ("sell", Json.str "-1.5"),
        ("date", Json.num (mkRat 1617500399000 1))]) =
      Except.ok ⟨mkRat 3 2, mkRat 2 1, mkRat 1 4, mkRat 300 1, mkRat 2469 20,
        mkRat (-3) 2, 1617500399000⟩ ∧
    decodeTicker (Json.obj [("high", Json.num x), ("low", Json.str "2"),
        ("vol", Json.str "0.25"), ("last", Json.str "3e2"),
        ("buy", Json.str "123.45000000"), ("sell", Json.str "-1.5"),
        ("date", Json.num (mkRat 1617500399000 1))]) =
      Except.error "invalid type: expected a string" ∧
    decodeOrderbookOrder (Json.obj [("order_id", Json.num (mkRat 42 1)),
        ("quantity", Json.str "0.00100000"), ("limit_price", Json.str "200.12"),
        ("is_owner", Json.bool false)]) =
      Except.ok ⟨42, mkRat 1 1000, mkRat 5003 25, false⟩ ∧
    decodeOrderbookOrder (Json.obj [("order_id", Json.num (mkRat 42 1)),
        ("quantity", Json.num x), ("limit_price", Json.str "200.12"),
        ("is_owner", Json.bool false)]) =
      Except.error "invalid type: expected a string" ∧
    decodeOrder (Json.obj [("order_id", Json.num (mkRat 7 1)),
        ("coin_pair", Json.str "BRLBTC"), ("order_type", Json.num (mkRat 1 1)),
        ("status", Json.num (mkRat 4 1)), ("has_fills", Json.bool true),
        ("quantity", Json.str "0.00100000"), ("limit_price", Json.str "200.12"),
        ("executed_quantity", Json.str "0.00100000"),
        ("executed_price_avg", Json.str "200.12"), ("fee", Json.str "0.00140084")]) =
      Except.ok ⟨7, "BRLBTC", .Buy, .Filled, true, mkRat 1 1000, mkRat 5003 25,
        mkRat 1 1000, mkRat 5003 25, mkRat 35021 25000000⟩ ∧
    decodeOrder (Json.obj [("order_id", Json.num (mkRat 7 1)),
        ("coin_pair", Json.str "BRLBTC"), ("order_type", Json.num (mkRat 1 1)),
        ("status", Json.num (mkRat 4 1)), ("has_fills", Json.bool true),
        ("quantity", Json.str "0.00100000"), ("limit_price", Json.str "200.12"),
        ("executed_quantity", Json.str "0.00100000"),
        ("executed_price_avg", Json.str "200.12"), ("fee", Json.num x)]) =
      Except.error "invalid type: expected a string" := by
  refine ⟨rfl, rfl, rfl, rfl, rfl, rfl, rfl, rfl, rfl, rfl, rfl, rfl⟩

/-- C9: clients built by `init` or `init_private` carry all three private
credentials, so the pre-request phase never aborts; on an `init_public`
client every private operation aborts (the `unwrap` of a missing
credential, modelled by `none`) before any request is issued. -/
theorem missing_credential_aborts (pu pr id sec u : String) (params : Query)
    (nonce : ℤ) (coin_pair : String) (full : Bool) (quantity limit_price : ℚ)
    (tr1 : Transport OrderbookResponse) (tr2 tr3 : Transport OrderResponse)
    (tr4 : Transport AccountInfoResponse) :
    privatePrep (Client.init pu pr id sec) params =
      some (params, signRaw sec params, pr, id) ∧
    privatePrep (Client.init_private u id sec) params =
      some (params, signRaw sec params, u, id) ∧
    Client.orderbook (Client.init_public u) nonce coin_pair full tr1 = none ∧
    Client.place_buy_order (Client.init_public u) nonce coin_pair quantity limit_price tr2 = none ∧
    Client.place_sell_order (Client.init_public u) nonce coin_pair quantity limit_price tr3 = none ∧
    Client.get_account_info (Client.init_public u) nonce tr4 = none :=
  ⟨rfl, rfl, rfl, rfl, rfl, rfl⟩

/-- C10: an envelope that decodes with the success status but an absent
payload makes the operation panic on `unwrap` of `None` rather than return
`Ok` or `Err`; with a present payload the success path returns `Ok`. -/
theorem success_without_payload_panics {T : Type} (r : Response T)
    (hs : r.status_code = ApiStatus.Success) :
    (r.response_data = none → handleResponse (Except.ok r) = OpResult.panicked) ∧
    (∀ d, r.response_data = some d → handleResponse (Except.ok r) = OpResult.ok d) := by
  constructor
  · intro hd
    simp only [handleResponse, Response.is_success, hs, hd, if_true]
  · intro d hd
    simp only [handleResponse, Response.is_success, hs, hd, if_true]

/-- Witness for C10 at a concrete success envelope with no payload. -/
theorem success_without_payload_panics_witness :
    (⟨none, ApiStatus.Success⟩ : Response ℕ).status_code = ApiStatus.Success ∧
    handleResponse (Except.ok (⟨none, ApiStatus.Success⟩ : Response ℕ)) = OpResult.panicked :=
  ⟨rfl, (success_without_payload_panics (⟨none, ApiStatus.Success⟩ : Response ℕ) rfl).1 rfl⟩

end MB
